import Mathlib

/-!
Verification of the media-backend durable job queue (video-center repository).

Shallow embedding of:
- the Task Store operations of media_backend/queue.py (enqueue, update_task_progress,
  finish_task, fail_task, mark_started, claim_next_task);
- the worker claim loop of worker.py (run_one);
- the classic progress-line grammar of media_backend/tasks/ffmpeg_pipeline.py;
- the pipeline executor run_pipeline of media_backend/tasks/ffmpeg_pipeline.py;
- the search executor of media_backend/tasks/ffmpeg_search.py, with its encode-count
  inference and best-first ordering.

External effects (PostgreSQL, subprocesses, wall clocks) are made explicit: the database
is a list of rows, the clock is a parameter, and subprocess execution is an oracle
function from a command to a success-or-error outcome.
-/

namespace MediaBackend

/-- Task lifecycle status, the `status` column of `media_tasks`. -/
inductive Status where
  | queued
  | started
  | finished
  | failed
deriving DecidableEq, Repr

/-- Status of one pipeline step in the executor history (ffmpeg_pipeline.py history entries). -/
inductive HStatus where
  | running
  | success
  | failed
deriving DecidableEq, Repr

/-- One per-step entry of the executor history list (ffmpeg_pipeline.py, attempt).
Wall-clock fields (startedAt, finishedAt, durationMs) and stdout/stderr tails are
not modelled; they do not affect any claim. -/
structure HistoryEntry where
  index : Nat
  status : HStatus
  error : Option String := none
deriving DecidableEq, Repr

/-- The value stored under the "ffmpeg" key of a progress-update extra
(ffmpeg_pipeline.py set_progress calls). Fields the source sometimes omits are Options. -/
structure FfmpegMeta where
  jobId : Option String := none
  label : Option String := none
  attempt : Option String := none
  history : Option (List HistoryEntry) := none
  error : Option String := none
deriving DecidableEq, Repr

/-- Result value of run_pipeline (the ok=True dict minus the ok flag). -/
structure PipelineResult where
  label : String
  attempt : String
  history : List HistoryEntry
deriving DecidableEq, Repr

/-- A metadata value: the jsonb values this development needs to distinguish. -/
inductive MVal where
  | num (n : Int)
  | str (s : String)
  | ffmpeg (m : FfmpegMeta)
  | pipeResult (r : PipelineResult)
deriving DecidableEq, Repr

/-- The meta jsonb object: an association list from keys to values. -/
abbrev Meta := List (String × MVal)

/-- Set one key of a jsonb object (last write wins, key order preserved for existing keys). -/
def metaSet (m : Meta) (k : String) (v : MVal) : Meta :=
  if (m.map Prod.fst).contains k then
    m.map (fun kv => if kv.1 = k then (k, v) else kv)
  else
    m ++ [(k, v)]

/-- The jsonb shallow-merge operator `||` of PostgreSQL: keys of the right operand
override keys of the left, top level only. -/
def metaMerge (base extra : Meta) : Meta :=
  extra.foldl (fun acc kv => metaSet acc kv.1 kv.2) base

/-- Lookup in a jsonb object. -/
def metaGet (m : Meta) (k : String) : Option MVal :=
  (m.find? (fun kv => kv.1 = k)).map Prod.snd

/-- One row of the `media_tasks` table. Timestamps are integer milliseconds. -/
structure TaskRow where
  id : Nat
  kind : String
  label : String
  status : Status
  progress : Int
  stage : String
  message : String
  meta : Meta
  seq : Nat
  result : Option MVal := none
  error : Option String := none
  lockedBy : Option String := none
  createdAt : Nat
  startedAt : Option Nat := none
  finishedAt : Option Nat := none
  lockedAt : Option Nat := none
  updatedAt : Nat
deriving DecidableEq, Repr

/-- queue.py enqueue: INSERT a fresh row with status queued, progress 0, seq 0 and
meta containing seq and updatedAt bookkeeping keys. -/
def enqueue (id : Nat) (kind label : String) (nowMs : Nat) : TaskRow :=
  { id := id
    kind := kind
    label := label
    status := .queued
    progress := 0
    stage := ""
    message := ""
    meta := [("seq", .num 0), ("updatedAt", .num (Int.ofNat nowMs))]
    seq := 0
    createdAt := nowMs
    updatedAt := nowMs }

/-- The clamp queue.py applies to an incoming progress value before writing it. -/
def clampProgress (p : Int) : Int :=
  if p < 0 then 0 else if p > 100 then 100 else p

/-- queue.py update_task_progress: clamp progress to [0,100], overwrite stage and message,
shallow-merge the extra (plus an updatedAt key) into meta, increment seq. -/
def update_task_progress (t : TaskRow) (progress : Int) (stage message : String)
    (extra : Meta) (nowMs : Nat) : TaskRow :=
  let p := clampProgress progress
  let extraMeta := metaSet extra "updatedAt" (.num (Int.ofNat nowMs))
  { t with
      progress := p
      stage := stage
      message := message
      meta := metaMerge t.meta extraMeta
      seq := t.seq + 1
      updatedAt := nowMs }

/-- queue.py finish_task: status finished, progress 100, stage done, result set,
meta shallow-merged, seq incremented, finished_at stamped. -/
def finish_task (t : TaskRow) (result : MVal) (extraMeta : Meta) (nowMs : Nat) : TaskRow :=
  { t with
      status := .finished
      progress := 100
      stage := "done"
      result := some result
      meta := metaMerge t.meta (metaSet extraMeta "updatedAt" (.num (Int.ofNat nowMs)))
      seq := t.seq + 1
      updatedAt := nowMs
      finishedAt := some nowMs }

/-- queue.py fail_task: status failed, stage error, error text set (empty text is
replaced by "failed", mirroring `str(error or "failed")`), meta shallow-merged,
seq incremented, finished_at stamped. The progress and result columns are not in
the UPDATE statement and stay as they were. -/
def fail_task (t : TaskRow) (error : String) (extraMeta : Meta) (nowMs : Nat) : TaskRow :=
  { t with
      status := .failed
      stage := "error"
      error := some (if error = "" then "failed" else error)
      meta := metaMerge t.meta (metaSet extraMeta "updatedAt" (.num (Int.ofNat nowMs)))
      seq := t.seq + 1
      updatedAt := nowMs
      finishedAt := some nowMs }

/-- Keep the row with the strictly smaller created_at (the earlier row wins ties). -/
def olderOf (acc : Option TaskRow) (t : TaskRow) : Option TaskRow :=
  match acc with
  | none => some t
  | some b => if t.createdAt < b.createdAt then some t else some b

/-- queue.py claim_next_task, candidate selection: among rows with status queued,
the one with the smallest created_at (ORDER BY created_at ASC LIMIT 1; ties resolved
by row order). -/
def queuedOldest (db : List TaskRow) : Option TaskRow :=
  (db.filter (fun t => t.status = .queued)).foldl olderOf none

/-- The row update claim_next_task applies to the selected candidate: status started,
started_at and locked_at stamped, locked_by set, seq incremented — one atomic statement. -/
def claimUpdate (workerId : String) (nowMs : Nat) (t : TaskRow) : TaskRow :=
  { t with
      status := .started
      startedAt := some nowMs
      lockedAt := some nowMs
      lockedBy := some workerId
      seq := t.seq + 1
      updatedAt := nowMs }

/-- queue.py claim_next_task: one atomic SQL statement (SELECT ... FOR UPDATE SKIP LOCKED
LIMIT 1 feeding an UPDATE ... RETURNING). The FOR UPDATE SKIP LOCKED clause makes a row
that is mid-claim by a concurrent caller invisible (skipped, not blocked on), so the whole
claim is modelled as one atomic step on the table. Returns the updated row and the new table. -/
def claim_next_task (db : List TaskRow) (workerId : String) (nowMs : Nat) :
    Option TaskRow × List TaskRow :=
  match queuedOldest db with
  | none => (none, db)
  | some c =>
      let db' := db.map (fun t => if t.id = c.id then claimUpdate workerId nowMs t else t)
      (some (claimUpdate workerId nowMs c), db')

/-- queue.py mark_started: status started, locked_by set, seq incremented. -/
def mark_started (t : TaskRow) (workerId : String) (nowMs : Nat) : TaskRow :=
  { t with
      status := .started
      startedAt := some (t.startedAt.getD nowMs)
      lockedAt := some nowMs
      lockedBy := some workerId
      meta := metaMerge t.meta [("updatedAt", .num (Int.ofNat nowMs))]
      seq := t.seq + 1
      updatedAt := nowMs }

/-! ### Worker claim loop (worker.py run_one) -/

/-- The task kinds worker.py run_one dispatches on. -/
def knownKinds : List String := ["demo.sleep", "ffmpeg.probe", "ffmpeg.pipeline", "ffmpeg.search"]

/-- worker.py run_one, with the claimed row and the kind-dispatched executor outcome made
explicit. Returns (did-something, final row). Every dispatch branch calls finish_task and
returns True; an unknown kind raises ValueError inside the try block; the except-clause
catches every executor exception and converts it via fail_task, returning True — so the
function itself always returns normally, which the embedding expresses by being total. -/
def run_one (execKind : String → Except String MVal) (claimed : Option TaskRow)
    (nowMs : Nat) : Bool × Option TaskRow :=
  match claimed with
  | none => (false, none)
  | some t =>
      let r : Except String MVal :=
        if knownKinds.contains t.kind then execKind t.kind
        else .error ("unknown task kind: " ++ t.kind)
      match r with
      | .ok v => (true, some (finish_task t v [] nowMs))
      | .error e => (true, some (fail_task t e [] nowMs))

/-! ### Classic progress-line grammar (ffmpeg_pipeline.py, _parse_classic_progress_line)

The six field regexes are compiled with re.IGNORECASE and applied with re.search
(leftmost match). Each is embedded as a character-list matcher plus a leftmost scan.
-/

/-- Case-sensitive substring test, embedding the Python `in` operator on str. -/
def strContains (s pat : List Char) : Bool :=
  match s with
  | [] => pat.isEmpty
  | _ :: rest => decide (pat <+: s) || strContains rest pat

/-- The characters the Python \s class matches (ASCII range). -/
def isPySpace (c : Char) : Bool :=
  c = ' ' || c = '\t' || c = '\n' || c = '\x0d' || c = '\x0b' || c = '\x0c'

/-- Case-insensitive literal match at the head; returns the rest of the input. -/
def matchLitCI : List Char → List Char → Option (List Char)
  | [], s => some s
  | _ :: _, [] => none
  | p :: ps, c :: cs => if c.toLower = p.toLower then matchLitCI ps cs else none

/-- Numeric value of a digit string. -/
def digitsToNat (ds : List Char) : Nat :=
  ds.foldl (fun acc c => acc * 10 + (c.toNat - '0'.toNat)) 0

/-- Python float() restricted to the character class [0-9.+-] its call sites can produce:
an optional leading sign, then digits with at most one dot and at least one digit.
Everything else (a second dot, a sign elsewhere, no digits) raises, i.e. returns none. -/
def pyFloat (s : List Char) : Option Rat :=
  let signAndRest : Rat × List Char :=
    match s with
    | '+' :: r => (1, r)
    | '-' :: r => (-1, r)
    | r => (1, r)
  let sign := signAndRest.1
  let intPart := signAndRest.2.takeWhile Char.isDigit
  let rest2 := signAndRest.2.dropWhile Char.isDigit
  match rest2 with
  | [] => if intPart.isEmpty then none else some (sign * (digitsToNat intPart : Rat))
  | '.' :: rest3 =>
      let fracPart := rest3.takeWhile Char.isDigit
      let rest4 := rest3.dropWhile Char.isDigit
      if rest4.isEmpty && !(intPart.isEmpty && fracPart.isEmpty) then
        some (sign * ((digitsToNat intPart : Rat) +
          (digitsToNat fracPart : Rat) / ((10 : Rat) ^ fracPart.length)))
      else none
  | _ => none

/-- Leftmost-match scan: try the position matcher at each suffix, earliest hit wins. -/
def scanFirst {α : Type} (f : List Char → Option α) : List Char → Option α
  | [] => none
  | c :: rest =>
      match f (c :: rest) with
      | some a => some a
      | none => scanFirst f rest

/-- Position matcher for `frame=\s*(\d+)`: the captured digit string. -/
def frameAt (s : List Char) : Option (List Char) := do
  let r ← matchLitCI "frame=".toList s
  let r2 := r.dropWhile isPySpace
  let ds := r2.takeWhile Char.isDigit
  if ds.isEmpty then none else some ds

/-- Position matcher for `fps=\s*([\d.]+)`. -/
def fpsAt (s : List Char) : Option (List Char) := do
  let r ← matchLitCI "fps=".toList s
  let r2 := r.dropWhile isPySpace
  let ds := r2.takeWhile (fun c => c.isDigit || c = '.')
  if ds.isEmpty then none else some ds

/-- Position matcher for `time=\s*(\d+:\d+:\d+(?:\.\d+)?)`: the captured time string. -/
def timeAt (s : List Char) : Option (List Char) := do
  let r ← matchLitCI "time=".toList s
  let r2 := r.dropWhile isPySpace
  let d1 := r2.takeWhile Char.isDigit
  let r3 := r2.dropWhile Char.isDigit
  if d1.isEmpty then none else
  match r3 with
  | ':' :: r4 =>
      let d2 := r4.takeWhile Char.isDigit
      let r5 := r4.dropWhile Char.isDigit
      if d2.isEmpty then none else
      match r5 with
      | ':' :: r6 =>
          let d3 := r6.takeWhile Char.isDigit
          let r7 := r6.dropWhile Char.isDigit
          if d3.isEmpty then none else
          let base := d1 ++ [':'] ++ d2 ++ [':'] ++ d3
          match r7 with
          | '.' :: r8 =>
              let d4 := r8.takeWhile Char.isDigit
              if d4.isEmpty then some base else some (base ++ ['.'] ++ d4)
          | _ => some base
      | _ => none
  | _ => none

/-- Position matcher for `speed=\s*([\d.+-]+)x`: the class cannot contain x, so the
maximal class run must be followed by a literal x (case-insensitive). -/
def speedAt (s : List Char) : Option (List Char) := do
  let r ← matchLitCI "speed=".toList s
  let r2 := r.dropWhile isPySpace
  let cls := fun (c : Char) => c.isDigit || c = '.' || c = '+' || c = '-'
  let ds := r2.takeWhile cls
  let r3 := r2.dropWhile cls
  if ds.isEmpty then none else
  match r3 with
  | c :: _ => if c.toLower = 'x' then some ds else none
  | [] => none

/-- Position matcher for `size=\s*([\d.]+)(kB|KB|mB|MB|gB|GB)` (IGNORECASE): the captured
number and the two-character unit as written. -/
def sizeAt (s : List Char) : Option (List Char × List Char) := do
  let r ← matchLitCI "size=".toList s
  let r2 := r.dropWhile isPySpace
  let ds := r2.takeWhile (fun c => c.isDigit || c = '.')
  let r3 := r2.dropWhile (fun c => c.isDigit || c = '.')
  if ds.isEmpty then none else
  match r3 with
  | u1 :: u2 :: _ =>
      if (u1.toLower = 'k' || u1.toLower = 'm' || u1.toLower = 'g') && u2.toLower = 'b' then
        some (ds, [u1, u2])
      else none
  | _ => none

/-- Position matcher for `bitrate=\s*([\d.]+)kbits/s` (IGNORECASE). -/
def bitrateAt (s : List Char) : Option (List Char) := do
  let r ← matchLitCI "bitrate=".toList s
  let r2 := r.dropWhile isPySpace
  let ds := r2.takeWhile (fun c => c.isDigit || c = '.')
  let r3 := r2.dropWhile (fun c => c.isDigit || c = '.')
  if ds.isEmpty then none else
  match matchLitCI "kbits/s".toList r3 with
  | some _ => some ds
  | none => none

/-- ffmpeg_pipeline.py _normalize_time_to_seconds: split on a colon, require exactly
three float parts, combine as h*3600 + m*60 + s. -/
def normalize_time_to_seconds (raw : List Char) : Option Rat :=
  match (raw.splitOn ':').map pyFloat with
  | [some h, some m, some s] => some (h * 3600 + m * 60 + s)
  | _ => none

/-- ffmpeg_pipeline.py _parse_size_to_kb: kB as given, MB times 1024, GB times 1024^2. -/
def parse_size_to_kb (value unit : List Char) : Option Rat := do
  let n ← pyFloat value
  match unit.map Char.toLower with
  | ['k', 'b'] => some n
  | ['m', 'b'] => some (n * 1024)
  | ['g', 'b'] => some (n * 1024 * 1024)
  | _ => none

/-- Leftmost `frame=` match with its integer value (int() on digits never raises). -/
def lineFrame (line : List Char) : Option Int :=
  (scanFirst frameAt line).map (fun ds => Int.ofNat (digitsToNat ds))

/-- Leftmost `fps=` match parsed by float(); a malformed capture is dropped (try/except pass). -/
def lineFps (line : List Char) : Option Rat :=
  (scanFirst fpsAt line).bind pyFloat

/-- Leftmost `time=` match normalized to seconds. -/
def lineTimeSeconds (line : List Char) : Option Rat :=
  (scanFirst timeAt line).bind normalize_time_to_seconds

/-- Leftmost `speed=` match parsed by float(). -/
def lineSpeed (line : List Char) : Option Rat :=
  (scanFirst speedAt line).bind pyFloat

/-- Leftmost `size=` match converted to kilobytes. -/
def lineTotalSizeKb (line : List Char) : Option Rat :=
  (scanFirst sizeAt line).bind (fun p => parse_size_to_kb p.1 p.2)

/-- Leftmost `bitrate=` match parsed by float(). -/
def lineBitrateKbps (line : List Char) : Option Rat :=
  (scanFirst bitrateAt line).bind pyFloat

/-- ffmpeg_pipeline.py ParsedProgress: one parsed progress line. -/
structure ParsedProgress where
  raw : List Char
  frame : Option Int := none
  fps : Option Rat := none
  timeSeconds : Option Rat := none
  speed : Option Rat := none
  totalSizeKb : Option Rat := none
  bitrateKbps : Option Rat := none
deriving DecidableEq, Repr

/-- How many of the six optional fields of a ParsedProgress are set (the
`meaningful` count of _parse_classic_progress_line). -/
def meaningfulCount (p : ParsedProgress) : Nat :=
  [p.frame.isSome, p.fps.isSome, p.timeSeconds.isSome, p.speed.isSome,
   p.totalSizeKb.isSome, p.bitrateKbps.isSome].count true

/-- The ParsedProgress record _parse_classic_progress_line fills field by field. -/
def classicParsed (line : List Char) : ParsedProgress :=
  { raw := line
    frame := lineFrame line
    fps := lineFps line
    timeSeconds := lineTimeSeconds line
    speed := lineSpeed line
    totalSizeKb := lineTotalSizeKb line
    bitrateKbps := lineBitrateKbps line }

/-- ffmpeg_pipeline.py _parse_classic_progress_line: bail out unless the line contains
the literal substring "frame=" or "time=" (case-sensitive, unlike the field regexes);
extract the six fields; return None unless at least two fields were extracted. -/
def parse_classic_progress_line (line : List Char) : Option ParsedProgress :=
  if !strContains line "frame=".toList && !strContains line "time=".toList then none
  else if meaningfulCount (classicParsed line) < 2 then none
  else some (classicParsed line)

/-- The number of the six classic progress fields that are present on a line, in the
sense of the spec: the field expression occurs on the line and parses. -/
def classicFieldsPresent (line : List Char) : Nat :=
  [(lineFrame line).isSome, (lineFps line).isSome, (lineTimeSeconds line).isSome,
   (lineSpeed line).isSome, (lineTotalSizeKb line).isSome,
   (lineBitrateKbps line).isSome].count true

/-! ### Search executor (ffmpeg_search.py) -/

/-- The element after the first occurrence of `flag`, if any (`a.index(flag)` plus the
`i + 1 < len(a)` guard). -/
def nextAfterFirst (a : List String) (flag : String) : Option String :=
  match a with
  | [] => none
  | x :: rest => if x = flag then rest.head? else nextAfterFirst rest flag

/-- The four filter-graph flags checked first by _infer_command_requires_encode. -/
def filterFlags : List String := ["-vf", "-filter_complex", "-lavfi", "-af"]

/-- The nine per-stream codec flags of the loop in _infer_command_requires_encode. -/
def streamCodecFlags : List String :=
  ["-c:v", "-codec:v", "-vcodec", "-c:a", "-codec:a", "-acodec", "-c:s", "-codec:s", "-scodec"]

/-- The six codec flags of the "codec not specified" test — note it omits the
long forms -codec:v, -codec:a, -codec:s that the loop above does check. -/
def shortCodecFlags : List String :=
  ["-c:v", "-vcodec", "-c:a", "-acodec", "-c:s", "-scodec"]

/-- Python str.lower on the character data (the embedding of .lower() at the call sites
of ffmpeg_search.py, which only ever compare ASCII flag and codec tokens). -/
def lowerStr (s : String) : String :=
  ⟨s.data.map Char.toLower⟩

/-- The characters of " ".join(a): the argument vector joined by single spaces. -/
def joinChars : List String → List Char
  | [] => []
  | [x] => x.data
  | x :: rest => x.data ++ ' ' :: joinChars rest

/-- The `joined` string of _infer_command_requires_encode: the space-joined, lowercased
argument vector, as its character data. -/
def joinedLower (a : List String) : List Char :=
  (joinChars a).map Char.toLower

/-- ffmpeg_search.py _infer_command_requires_encode, translated branch for branch:
1. a filter flag forces True;
2. "-c" followed by "copy" returns False;
3. any per-stream codec flag followed by a value other than "copy" returns True
   (a flag in final position, with no following value, is skipped);
4. if neither "-c" nor any of the six short codec flags occurs, default True;
5. if the joined lowercased argument string contains "copy" and none of -vf, -filter_complex, -af occur,
   return False;
6. otherwise True. -/
def infer_command_requires_encode (a : List String) : Bool :=
  if filterFlags.any (fun f => a.contains f) then true
  else if (nextAfterFirst a "-c").any (fun v => lowerStr v == "copy") then false
  else if streamCodecFlags.any (fun f =>
            (nextAfterFirst a f).any (fun v => lowerStr v != "copy")) then true
  else if !a.contains "-c" && shortCodecFlags.all (fun f => !a.contains f) then true
  else if strContains (joinedLower a) "copy".toList &&
          !a.contains "-vf" && !a.contains "-filter_complex" && !a.contains "-af" then false
  else true

/-- One command spec of a pipeline payload (args plus the per-command options; cwd and
env do not affect any claim and are omitted). -/
structure Cmd where
  args : List String
  timeoutMs : Option Int := none
  durationHintSeconds : Option Rat := none
deriving DecidableEq, Repr

/-- One search candidate (ffmpeg_search.py candidate dict). An absent fallbackCommands
key and an empty list are both falsy in the source, so a single list suffices. -/
structure Candidate where
  label : Option String := none
  score : Option Rat := none
  encodeCount : Option Int := none
  commands : List Cmd := []
  fallbackCommands : List Cmd := []
deriving DecidableEq, Repr

/-- ffmpeg_search.py _infer_candidate_encode_count: an explicit non-negative integer
encodeCount wins; otherwise count the commands whose args require encoding. -/
def infer_candidate_encode_count (c : Candidate) : Nat :=
  match c.encodeCount with
  | some n => if 0 ≤ n then n.toNat
              else (c.commands.filter (fun cmd => infer_command_requires_encode cmd.args)).length
  | none => (c.commands.filter (fun cmd => infer_command_requires_encode cmd.args)).length

/-- The sort key of ffmpeg_search.py _sort_key. scoreVal none stands for float("inf"),
which the source uses exactly when the score is absent (hasScore = 1). -/
structure SortKey where
  encodeCount : Nat
  hasScore : Nat
  scoreVal : Option Rat
  idx : Nat
deriving DecidableEq, Repr

/-- ffmpeg_search.py _sort_key on an (original index, candidate) pair. -/
def sort_key (item : Nat × Candidate) : SortKey :=
  { encodeCount := infer_candidate_encode_count item.2
    hasScore := if item.2.score.isSome then 0 else 1
    scoreVal := item.2.score
    idx := item.1 }

/-- Strict order on the scoreVal component: finite values by the rational order,
every finite value below the infinity that none stands for. -/
def svLt : Option Rat → Option Rat → Prop
  | some x, some y => x < y
  | some _, none => True
  | none, _ => False

instance : DecidableRel svLt := fun a b => by
  cases a <;> cases b <;> simp [svLt] <;> infer_instance

/-- Strict lexicographic order on sort keys, the order of Python tuple comparison. -/
def keyLt (k1 k2 : SortKey) : Prop :=
  k1.encodeCount < k2.encodeCount ∨ (k1.encodeCount = k2.encodeCount ∧
    (k1.hasScore < k2.hasScore ∨ (k1.hasScore = k2.hasScore ∧
      (svLt k1.scoreVal k2.scoreVal ∨ (k1.scoreVal = k2.scoreVal ∧ k1.idx < k2.idx)))))

instance : DecidableRel keyLt := fun _ _ => by unfold keyLt; infer_instance

/-- Reflexive closure of keyLt; sorted(...) orders by this total preorder. -/
def keyLE (k1 k2 : SortKey) : Prop := keyLt k1 k2 ∨ k1 = k2

instance : DecidableRel keyLE := fun _ _ => by unfold keyLE; infer_instance

/-- The comparison run_search sorts enumerated candidates by. -/
def candLE (x y : Nat × Candidate) : Prop := keyLE (sort_key x) (sort_key y)

instance : DecidableRel candLE := fun _ _ => by unfold candLE; infer_instance

/-- The strict version, for stating strict ascending order of the tried candidates. -/
def candLt (x y : Nat × Candidate) : Prop := keyLt (sort_key x) (sort_key y)

/-- CPython sorted() is a stable comparison sort; since the idx component makes every
key distinct here, any comparison sort by keyLE produces the same list, and the
embedding uses insertion sort. -/
def orderedCandidates (cs : List Candidate) : List (Nat × Candidate) :=
  List.insertionSort candLE cs.enum

/-- The raised-exception outcomes of run_search. -/
inductive SearchError where
  /-- ValueError("candidates is empty"), raised before anything runs. -/
  | emptyCandidates
  /-- The exhaustion path (every candidate failed or was skipped): the source evaluates
  the undefined name job_id while building the final set_progress extra, so a NameError
  is raised there — before the RuntimeError("all candidates failed") line. -/
  | nameErrorJobId
  /-- RuntimeError("all candidates failed") with the attempts log: the statement after
  the NameError site; unreachable in the source as written. -/
  | allCandidatesFailed (attempts : List String)
deriving DecidableEq, Repr

/-- Successful outcome of run_search (the ok=True dict; only the fields the claims
inspect are kept). -/
structure SearchResult where
  chosenOrigIndex : Nat
  usedFallback : Bool
deriving DecidableEq, Repr

/-- Outcome of _run_attempt, reduced to the raised-or-returned verdict: an empty args
list raises ValueError at the top of the step loop, otherwise each command runs in
order and the first subprocess failure propagates. -/
def runAttempt (exec : Cmd → Except String Unit) : List Cmd → Except String Unit
  | [] => .ok ()
  | c :: rest =>
      if c.args = [] then .error "ffmpeg command args is empty"
      else
        match exec c with
        | .ok _ => runAttempt exec rest
        | .error e => .error e

/-- Whether a candidate attempt (primary, then fallback when a nonempty fallback list
is supplied) ends in success. -/
def candSucceeds (exec : Cmd → Except String Unit) (c : Candidate) : Bool :=
  match runAttempt exec c.commands with
  | .ok _ => true
  | .error _ => c.fallbackCommands ≠ [] && (runAttempt exec c.fallbackCommands).isOk

/-- The candidate loop of run_search over the sorted list, also returning the trace of
candidates actually attempted (in order). A candidate with an empty or missing commands
list is skipped by the `continue` at the top of the loop body. -/
def searchLoop (exec : Cmd → Except String Unit) :
    List (Nat × Candidate) → List (Nat × Candidate) → List (Nat × Candidate) × Except SearchError SearchResult
  | [], tried => (tried.reverse, .error .nameErrorJobId)
  | (orig, cand) :: rest, tried =>
      if cand.commands = [] then searchLoop exec rest tried
      else
        match runAttempt exec cand.commands with
        | .ok _ =>
            (((orig, cand) :: tried).reverse, .ok { chosenOrigIndex := orig, usedFallback := false })
        | .error _ =>
            if cand.fallbackCommands ≠ [] then
              match runAttempt exec cand.fallbackCommands with
              | .ok _ =>
                  (((orig, cand) :: tried).reverse,
                    .ok { chosenOrigIndex := orig, usedFallback := true })
              | .error _ => searchLoop exec rest ((orig, cand) :: tried)
            else searchLoop exec rest ((orig, cand) :: tried)

/-- ffmpeg_search.py run_search: reject an empty candidate list, sort the enumerated
candidates by the sort key, and run the best-first loop. Returns the trace of attempted
candidates together with the outcome. -/
def run_search (exec : Cmd → Except String Unit) (candidates : List Candidate) :
    List (Nat × Candidate) × Except SearchError SearchResult :=
  if candidates = [] then ([], .error .emptyCandidates)
  else searchLoop exec (orderedCandidates candidates) []

/-! ### Pipeline executor (ffmpeg_pipeline.py run_pipeline)

A progress event is one call into the bound Progress Channel sink; the worker binds the
sink to update_task_progress, so a run folds its events into the task row. Subprocess
execution is the oracle `exec`; the events the process runner emits internally while a
step runs all carry the same top-level "ffmpeg" extra key and are each overwritten by
the next pipeline-level event under the jsonb shallow merge, so they are not modelled.
-/

/-- One emission through progress.py set_progress (which clamps before forwarding). -/
structure Event where
  progress : Int
  stage : String
  message : String
  extra : Meta
deriving DecidableEq, Repr

/-- progress.py set_progress with a bound sink: clamp the percentage, forward the rest. -/
def mkEvent (progress : Int) (stage message : String) (extra : Meta) : Event :=
  { progress := clampProgress progress, stage := stage, message := message, extra := extra }

/-- The per-step base percentage int((i / max(1, total)) * 100). -/
def stepBasePct (i total : Nat) : Int :=
  Int.ofNat ((i * 100) / max 1 total)

/-- Everything one attempt (primary or fallback pipeline list) produces: its progress
events, the commands actually handed to the subprocess runner, the final value of its
history list, and the returned-or-raised verdict. -/
structure AttemptOut where
  events : List Event
  spawned : List Cmd
  history : List HistoryEntry
  result : Except String Unit
deriving Repr

/-- The extra dict of the per-step set_progress calls inside attempt. -/
def attemptExtra (taskId label attemptName : String) (history : List HistoryEntry)
    (error : Option String) : Meta :=
  [("ffmpeg", .ffmpeg
    { jobId := some taskId
      label := some label
      attempt := some attemptName
      history := some history
      error := error })]

/-- The step loop of ffmpeg_pipeline.py attempt. For each command: raise ValueError on
an empty args list (before appending to history or spawning); otherwise append a running
history entry, report step progress, spawn; on success mark the entry success and
continue, on failure mark it failed, report the failure and re-raise. -/
def attemptGo (exec : Cmd → Except String Unit) (taskId label attemptName : String)
    (total : Nat) : Nat → List HistoryEntry → List Cmd → AttemptOut
  | _, done, [] => { events := [], spawned := [], history := done, result := .ok () }
  | i, done, c :: rest =>
      if c.args = [] then
        { events := [], spawned := [], history := done,
          result := .error "ffmpeg command args is empty" }
      else
        match exec c with
        | .ok _ =>
            { events := mkEvent (stepBasePct i total) "ffmpeg"
                  (label ++ ": " ++ attemptName ++ " [" ++ toString (i + 1) ++ "/" ++
                    toString total ++ "]")
                  (attemptExtra taskId label attemptName
                    (done ++ [{ index := i, status := .running }]) none) ::
                (attemptGo exec taskId label attemptName total (i + 1)
                  (done ++ [{ index := i, status := .success }]) rest).events
              spawned := c :: (attemptGo exec taskId label attemptName total (i + 1)
                  (done ++ [{ index := i, status := .success }]) rest).spawned
              history := (attemptGo exec taskId label attemptName total (i + 1)
                  (done ++ [{ index := i, status := .success }]) rest).history
              result := (attemptGo exec taskId label attemptName total (i + 1)
                  (done ++ [{ index := i, status := .success }]) rest).result }
        | .error e =>
            { events := [mkEvent (stepBasePct i total) "ffmpeg"
                  (label ++ ": " ++ attemptName ++ " [" ++ toString (i + 1) ++ "/" ++
                    toString total ++ "]")
                  (attemptExtra taskId label attemptName
                    (done ++ [{ index := i, status := .running }]) none),
                mkEvent (stepBasePct i total) "ffmpeg"
                  (label ++ ": " ++ attemptName ++ " failed")
                  (attemptExtra taskId label attemptName
                    (done ++ [{ index := i, status := .failed, error := some e }]) (some e))]
              spawned := [c]
              history := done ++ [{ index := i, status := .failed, error := some e }]
              result := .error e }

/-- ffmpeg_pipeline.py attempt: run one pipeline list from step 0 with a fresh history. -/
def attempt (exec : Cmd → Except String Unit) (taskId label attemptName : String)
    (pipeline : List Cmd) : AttemptOut :=
  attemptGo exec taskId label attemptName pipeline.length 0 [] pipeline

/-- Everything a run_pipeline call produces. -/
structure PipelineOut where
  events : List Event
  spawned : List Cmd
  result : Except String PipelineResult
deriving Repr

/-- The extra of the final success event of run_pipeline (jobId plus the result dict). -/
def doneExtra (taskId : String) (r : PipelineResult) : Meta :=
  [("ffmpeg", .ffmpeg
    { jobId := some taskId
      label := some r.label
      attempt := some r.attempt
      history := some r.history })]

/-- The extra of the final failure event of run_pipeline. -/
def pipelineErrorExtra (taskId label e : String) : Meta :=
  [("ffmpeg", .ffmpeg { jobId := some taskId, label := some label, error := some e })]

/-- ffmpeg_pipeline.py run_pipeline: run the primary list; on any exception, if a
fallback list was supplied (non-falsy: present and nonempty), restart at step 0 against
it with a fresh history; report done at 100 on success of either attempt; report failure
and re-raise only when the primary and the supplied fallback (if any) both failed. -/
def run_pipeline (exec : Cmd → Except String Unit) (taskId label : String)
    (commands : List Cmd) (fallback : Option (List Cmd)) : PipelineOut :=
  match (attempt exec taskId label "primary" commands).result with
  | .ok _ =>
      { events := (attempt exec taskId label "primary" commands).events ++
          [mkEvent 100 "done" (label ++ ": done")
            (doneExtra taskId
              { label := label
                attempt := "primary"
                history := (attempt exec taskId label "primary" commands).history })]
        spawned := (attempt exec taskId label "primary" commands).spawned
        result := .ok
          { label := label
            attempt := "primary"
            history := (attempt exec taskId label "primary" commands).history } }
  | .error e =>
      match fallback with
      | some fb =>
          if fb = [] then
            { events := (attempt exec taskId label "primary" commands).events ++
                [mkEvent 100 "error" (label ++ ": failed") (pipelineErrorExtra taskId label e)]
              spawned := (attempt exec taskId label "primary" commands).spawned
              result := .error e }
          else
            match (attempt exec taskId label "fallback" fb).result with
            | .ok _ =>
                { events := (attempt exec taskId label "primary" commands).events ++
                    (attempt exec taskId label "fallback" fb).events ++
                    [mkEvent 100 "done" (label ++ ": done (fallback)")
                      (doneExtra taskId
                        { label := label
                          attempt := "fallback"
                          history := (attempt exec taskId label "fallback" fb).history })]
                  spawned := (attempt exec taskId label "primary" commands).spawned ++
                    (attempt exec taskId label "fallback" fb).spawned
                  result := .ok
                    { label := label
                      attempt := "fallback"
                      history := (attempt exec taskId label "fallback" fb).history } }
            | .error fe =>
                { events := (attempt exec taskId label "primary" commands).events ++
                    (attempt exec taskId label "fallback" fb).events ++
                    [mkEvent 100 "error" (label ++ ": failed")
                      (pipelineErrorExtra taskId label fe)]
                  spawned := (attempt exec taskId label "primary" commands).spawned ++
                    (attempt exec taskId label "fallback" fb).spawned
                  result := .error fe }
      | none =>
          { events := (attempt exec taskId label "primary" commands).events ++
              [mkEvent 100 "error" (label ++ ": failed") (pipelineErrorExtra taskId label e)]
            spawned := (attempt exec taskId label "primary" commands).spawned
            result := .error e }

/-- The worker sink: each event lands in the task row through update_task_progress. -/
def applyEvents (t : TaskRow) (evs : List Event) (nowMs : Nat) : TaskRow :=
  evs.foldl (fun acc e => update_task_progress acc e.progress e.stage e.message e.extra nowMs) t

/-- A full worker execution of one ffmpeg.pipeline task that is already claimed:
stream the progress events into the row, then write the terminal state. -/
def runPipelineTask (exec : Cmd → Except String Unit) (taskId label : String)
    (row : TaskRow) (commands : List Cmd) (fallback : Option (List Cmd)) (nowMs : Nat) : TaskRow :=
  match (run_pipeline exec taskId label commands fallback).result with
  | .ok r =>
      finish_task (applyEvents row (run_pipeline exec taskId label commands fallback).events nowMs)
        (.pipeResult r) [] nowMs
  | .error e =>
      fail_task (applyEvents row (run_pipeline exec taskId label commands fallback).events nowMs)
        e [] nowMs

/-! ### Derived specification functions and concrete sample values -/

/-- The candidates run_search actually considers: the sorted enumeration, minus the
candidates skipped for an empty commands list. -/
def liveCandidates (cs : List Candidate) : List (Nat × Candidate) :=
  (orderedCandidates cs).filter (fun p => !p.2.commands.isEmpty)

/-- The candidates a best-first loop over `l` attempts: every live candidate up to and
including the first succeeding one, or all of them when none succeeds. -/
def loopTriedSpec (exec : Cmd → Except String Unit) (l : List (Nat × Candidate)) :
    List (Nat × Candidate) :=
  match (l.filter (fun p => !p.2.commands.isEmpty)).dropWhile (fun p => !candSucceeds exec p.2) with
  | [] => l.filter (fun p => !p.2.commands.isEmpty)
  | x :: _ =>
      (l.filter (fun p => !p.2.commands.isEmpty)).takeWhile (fun p => !candSucceeds exec p.2) ++ [x]

/-- The outcome a best-first loop over `l` reports: the first succeeding live candidate,
or the exhaustion error. -/
def loopResultSpec (exec : Cmd → Except String Unit) (l : List (Nat × Candidate)) :
    Except SearchError SearchResult :=
  match (l.filter (fun p => !p.2.commands.isEmpty)).dropWhile (fun p => !candSucceeds exec p.2) with
  | [] => .error .nameErrorJobId
  | x :: _ => .ok { chosenOrigIndex := x.1, usedFallback := !(runAttempt exec x.2.commands).isOk }

/-- History entries with consecutive indices and success status, the history an attempt
that runs steps i, i+1, ..., i+n-1 to completion accumulates. -/
def successRange (i n : Nat) : List HistoryEntry :=
  (List.range' i n).map (fun j => { index := j, status := .success })

/-- Ids of the queued rows of a table. -/
def queuedIds (db : List TaskRow) : List Nat :=
  (db.filter (fun t => t.status = .queued)).map TaskRow.id

/-- A sequence of claim_next_task calls against one shared table (each call is one
atomic SQL statement, justified by FOR UPDATE SKIP LOCKED as discussed at
claim_next_task). Returns the final table and the claims made, in order. -/
def runClaims : List TaskRow → List (String × Nat) → List TaskRow × List (TaskRow × String)
  | db, [] => (db, [])
  | db, (w, now) :: rest =>
      match claim_next_task db w now with
      | (none, db') => runClaims db' rest
      | (some c, db') =>
          let r := runClaims db' rest
          (r.1, (c, w) :: r.2)

/-- A sample queued row, for witnesses. -/
def sampleRow : TaskRow := enqueue 1 "demo.sleep" "lbl" 10

/-- A second sample queued row with a later created_at, for witnesses. -/
def sampleRow2 : TaskRow := enqueue 2 "ffmpeg.pipeline" "lbl2" 20

/-- An executor oracle that fails every command, for witnesses and counterexamples. -/
def failExec : Cmd → Except String Unit := fun _ => .error "ffmpeg exit 1: boom"

/-- An executor oracle for the C5 scenario: the primary command A fails, everything
else succeeds. -/
def fallbackScenarioExec : Cmd → Except String Unit :=
  fun c => if c.args = ["A"] then .error "ffmpeg exit 1: boom" else .ok ()

/-- The claimed row the C5 scenario runs against. -/
def fallbackScenarioRow : TaskRow := claimUpdate "w1" 50 (enqueue 7 "ffmpeg.pipeline" "L" 10)

/-- The primary command list of the C5 scenario. -/
def primaryCmdsC5 : List Cmd := [{ args := ["A"] }]

/-- The fallback command list of the C5 scenario. -/
def fallbackCmdsC5 : List Cmd := [{ args := ["B"] }]

/-- The candidate with explicit encodeCount 2 of the ordering example. -/
def candEnc2 : Candidate := { encodeCount := some 2, commands := [{ args := ["a"] }] }

/-- The candidate with explicit encodeCount 0 of the ordering example. -/
def candEnc0 : Candidate := { encodeCount := some 0, commands := [{ args := ["b"] }] }

/-- The candidate with explicit encodeCount 1 of the ordering example. -/
def candEnc1 : Candidate := { encodeCount := some 1, commands := [{ args := ["c"] }] }

/-- The all-stream-copy argument vector, spelled with the long-form codec flags, that
the C8 counterexample evaluates. -/
def longFormCopyArgs : List String :=
  ["-i", "in.mp4", "-codec:v", "copy", "-codec:a", "copy", "-codec:s", "copy", "out.mp4"]

/-- A row used by the C9 witness: its kind matches no executor. -/
def unknownKindRow : TaskRow := enqueue 3 "bogus" "x" 0

/-- A two-row queued table for the C2 witness; the row with id 2 is older. -/
def claimTableW : List TaskRow := [enqueue 1 "demo.sleep" "a" 10, enqueue 2 "demo.sleep" "b" 5]

/-- Two claim calls by two workers for the C2 witness. -/
def claimCallsW : List (String × Nat) := [("w1", 100), ("w2", 200)]

/-! ## Theorems -/

/-- The clamp maps every integer into [0, 100]. -/
theorem clampProgress_bounds (p : Int) : 0 ≤ clampProgress p ∧ clampProgress p ≤ 100 := by
  unfold clampProgress
  split
  · omega
  · split <;> omega

/-- Claim C1 (code bug): with a single candidate whose only command fails and that has no
fallback, run_search reaches the exhaustion path, whose final set_progress call evaluates
the undefined name job_id — so the run raises NameError there, instead of raising the
search-level RuntimeError and carrying the accumulated attempts log in a final progress
update keyed by the task identifier in scope. -/
theorem C1_exhaustion_path_hits_undefined_jobId :
    (run_search failExec [{ commands := [{ args := ["-i", "x"] }] }]).2 =
      .error .nameErrorJobId := by
  rfl

/-- Claim C6: a progress report persists exactly the clamped value, hence a value in
[0, 100]; and each row mutation — progress report, claim, finish, fail — increments the
seq counter by exactly one, so seq strictly increases with each report. -/
theorem C6_progress_clamped_and_seq_increments (t : TaskRow) (p : Int)
    (stage message : String) (extra : Meta) (now : Nat) (result : MVal) (e w : String) :
    (update_task_progress t p stage message extra now).progress = clampProgress p ∧
    (0 ≤ (update_task_progress t p stage message extra now).progress ∧
      (update_task_progress t p stage message extra now).progress ≤ 100) ∧
    (update_task_progress t p stage message extra now).seq = t.seq + 1 ∧
    (claimUpdate w now t).seq = t.seq + 1 ∧
    (finish_task t result extra now).seq = t.seq + 1 ∧
    (fail_task t e extra now).seq = t.seq + 1 := by
  exact ⟨rfl, clampProgress_bounds p, rfl, rfl, rfl, rfl⟩

/-- Witness for C6 at a concrete row and an out-of-range progress value. -/
theorem C6_witness :
    (update_task_progress sampleRow 150 "s" "m" [] 11).progress = clampProgress 150 ∧
    (0 ≤ (update_task_progress sampleRow 150 "s" "m" [] 11).progress ∧
      (update_task_progress sampleRow 150 "s" "m" [] 11).progress ≤ 100) ∧
    (update_task_progress sampleRow 150 "s" "m" [] 11).seq = sampleRow.seq + 1 ∧
    (claimUpdate "w" 11 sampleRow).seq = sampleRow.seq + 1 ∧
    (finish_task sampleRow (.num 1) [] 11).seq = sampleRow.seq + 1 ∧
    (fail_task sampleRow "boom" [] 11).seq = sampleRow.seq + 1 :=
  C6_progress_clamped_and_seq_increments sampleRow 150 "s" "m" [] 11 (.num 1) "boom" "w"

/-- Claim C10: fail_task sets only status, stage, error, meta (shallow merge), seq and
the timestamps; the progress and result columns are untouched, so a failed task keeps
its last reported progress and never gains a result. -/
theorem C10_fail_task_frame (t : TaskRow) (e : String) (extra : Meta) (now : Nat) :
    (fail_task t e extra now).progress = t.progress ∧
    (fail_task t e extra now).result = t.result ∧
    (fail_task t e extra now).status = .failed ∧
    (fail_task t e extra now).stage = "error" ∧
    (fail_task t e extra now).error = some (if e = "" then "failed" else e) ∧
    (fail_task t e extra now).meta =
      metaMerge t.meta (metaSet extra "updatedAt" (.num (Int.ofNat now))) ∧
    (fail_task t e extra now).seq = t.seq + 1 ∧
    (fail_task t e extra now).id = t.id ∧
    (fail_task t e extra now).kind = t.kind ∧
    (fail_task t e extra now).label = t.label ∧
    (fail_task t e extra now).message = t.message ∧
    (fail_task t e extra now).lockedBy = t.lockedBy ∧
    (fail_task t e extra now).createdAt = t.createdAt ∧
    (fail_task t e extra now).startedAt = t.startedAt :=
  ⟨rfl, rfl, rfl, rfl, rfl, rfl, rfl, rfl, rfl, rfl, rfl, rfl, rfl, rfl⟩

/-- Witness for C10 at a concrete row. -/
theorem C10_witness :
    (fail_task sampleRow "boom" [] 12).progress = sampleRow.progress ∧
    (fail_task sampleRow "boom" [] 12).result = sampleRow.result ∧
    (fail_task sampleRow "boom" [] 12).status = .failed ∧
    (fail_task sampleRow "boom" [] 12).stage = "error" ∧
    (fail_task sampleRow "boom" [] 12).error = some (if "boom" = "" then "failed" else "boom") ∧
    (fail_task sampleRow "boom" [] 12).meta =
      metaMerge sampleRow.meta (metaSet [] "updatedAt" (.num (Int.ofNat 12))) ∧
    (fail_task sampleRow "boom" [] 12).seq = sampleRow.seq + 1 ∧
    (fail_task sampleRow "boom" [] 12).id = sampleRow.id ∧
    (fail_task sampleRow "boom" [] 12).kind = sampleRow.kind ∧
    (fail_task sampleRow "boom" [] 12).label = sampleRow.label ∧
    (fail_task sampleRow "boom" [] 12).message = sampleRow.message ∧
    (fail_task sampleRow "boom" [] 12).lockedBy = sampleRow.lockedBy ∧
    (fail_task sampleRow "boom" [] 12).createdAt = sampleRow.createdAt ∧
    (fail_task sampleRow "boom" [] 12).startedAt = sampleRow.startedAt :=
  C10_fail_task_frame sampleRow "boom" [] 12

/-- Claim C9: run_one always returns normally for a claimed task (first component true),
and both an unknown kind and an executor error end as a terminal failed row carrying the
error text. -/
theorem C9_run_one_converts_errors (execKind : String → Except String MVal)
    (t : TaskRow) (now : Nat) (e : String) :
    (run_one execKind (some t) now).1 = true ∧
    (¬ knownKinds.contains t.kind →
      run_one execKind (some t) now =
        (true, some (fail_task t ("unknown task kind: " ++ t.kind) [] now)) ∧
      (fail_task t ("unknown task kind: " ++ t.kind) [] now).status = .failed ∧
      (fail_task t ("unknown task kind: " ++ t.kind) [] now).error =
        some ("unknown task kind: " ++ t.kind)) ∧
    (knownKinds.contains t.kind → execKind t.kind = .error e →
      run_one execKind (some t) now = (true, some (fail_task t e [] now)) ∧
      (fail_task t e [] now).status = .failed ∧
      (fail_task t e [] now).error = some (if e = "" then "failed" else e)) := by
  have hbody : ∀ r : Except String MVal,
      (if knownKinds.contains t.kind then execKind t.kind
       else .error ("unknown task kind: " ++ t.kind)) = r →
      run_one execKind (some t) now =
        (match r with
         | .ok v => (true, some (finish_task t v [] now))
         | .error e2 => (true, some (fail_task t e2 [] now))) := by
    intro r hr
    show (match (if knownKinds.contains t.kind then execKind t.kind
                 else .error ("unknown task kind: " ++ t.kind)) with
          | .ok v => (true, some (finish_task t v [] now))
          | .error e2 => (true, some (fail_task t e2 [] now))) = _
    rw [hr]
  refine ⟨?_, ?_, ?_⟩
  · rcases hr : (if knownKinds.contains t.kind then execKind t.kind
        else .error ("unknown task kind: " ++ t.kind)) with v | e2 <;>
      rw [hbody _ hr]
  · intro h
    refine ⟨?_, rfl, ?_⟩
    · rw [hbody _ (by rw [if_neg h])]
    · have hne : ("unknown task kind: " ++ t.kind) ≠ "" := by
        intro hcon
        have h2 := congrArg String.data hcon
        simp at h2
      simp [fail_task, hne]
  · intro h he
    refine ⟨?_, rfl, rfl⟩
    rw [hbody _ (by rw [if_pos h, he])]

/-- Witness for C9: an unknown-kind row and an erroring executor, at concrete inputs. -/
theorem C9_witness :
    (¬ knownKinds.contains unknownKindRow.kind ∧
      run_one (fun _ => .error "boom") (some unknownKindRow) 5 =
        (true, some (fail_task unknownKindRow ("unknown task kind: " ++ unknownKindRow.kind) [] 5))) ∧
    (knownKinds.contains sampleRow.kind ∧
      run_one (fun _ => .error "boom") (some sampleRow) 5 =
        (true, some (fail_task sampleRow "boom" [] 5))) :=
  ⟨⟨by decide,
    ((C9_run_one_converts_errors (fun _ => .error "boom") unknownKindRow 5 "boom").2.1
      (by decide)).1⟩,
   ⟨by decide,
    ((C9_run_one_converts_errors (fun _ => .error "boom") sampleRow 5 "boom").2.2
      (by decide) rfl).1⟩⟩

/-- Claim C4 counterexample: the line "fps=30 speed=1.5x" carries two of the six progress
fields (fps and speed), yet the classic parser yields no event, because the line contains
neither of the literal substrings "frame=" and "time=" that gate the parser — refuting
"an event exactly when at least two of the six fields, in any combination, are present". -/
theorem C4_counterexample :
    2 ≤ classicFieldsPresent "fps=30 speed=1.5x".toList ∧
    parse_classic_progress_line "fps=30 speed=1.5x".toList = none := by
  exact ⟨by decide, by decide⟩

/-- Claim C4 (amended): a classic line yields a progress event exactly when it contains
the literal substring "frame=" or "time=" and at least two of the six fields parse; in
particular a line with only frame=120 yields no event, and a line with frame=120 fps=30
yields one. -/
theorem C4_two_field_minimum_behind_gate :
    (∀ line : List Char,
      (parse_classic_progress_line line).isSome ↔
        ((strContains line "frame=".toList || strContains line "time=".toList) = true ∧
          2 ≤ classicFieldsPresent line)) ∧
    parse_classic_progress_line "frame=120".toList = none ∧
    (parse_classic_progress_line "frame=120 fps=30".toList).isSome = true := by
  refine ⟨?_, by decide, by decide⟩
  intro line
  have hcc : meaningfulCount (classicParsed line) = classicFieldsPresent line := rfl
  by_cases hg : (!strContains line "frame=".toList && !strContains line "time=".toList) = true
  · rw [parse_classic_progress_line, if_pos hg]
    simp only [Bool.and_eq_true, Bool.not_eq_true'] at hg
    rw [hg.1, hg.2]
    simp
  · rw [parse_classic_progress_line, if_neg hg]
    have hgate : (strContains line "frame=".toList || strContains line "time=".toList) = true := by
      rcases hx : strContains line "frame=".toList <;>
        rcases hy : strContains line "time=".toList <;> simp_all
    by_cases h2 : meaningfulCount (classicParsed line) < 2
    · rw [if_pos h2]
      rw [hcc] at h2
      simp only [Option.isSome_none, Bool.false_eq_true, false_iff, not_and, not_le]
      intro _
      exact h2
    · rw [if_neg h2]
      rw [hcc] at h2
      simp only [Option.isSome_some, true_iff]
      exact ⟨hgate, by omega⟩

/-- Witness for C4 at a concrete line, instantiating the general characterization. -/
theorem C4_witness :
    (parse_classic_progress_line "frame=120 time=00:00:01".toList).isSome ↔
      ((strContains "frame=120 time=00:00:01".toList "frame=".toList ||
        strContains "frame=120 time=00:00:01".toList "time=".toList) = true ∧
        2 ≤ classicFieldsPresent "frame=120 time=00:00:01".toList) :=
  C4_two_field_minimum_behind_gate.1 "frame=120 time=00:00:01".toList

/-- A flag absent from the argument vector has no following value. -/
theorem nextAfterFirst_eq_none_of_not_mem (a : List String) (flag : String) (h : flag ∉ a) :
    nextAfterFirst a flag = none := by
  induction a with
  | nil => rfl
  | cons x rest ih =>
      rw [nextAfterFirst, if_neg (fun hx => h (by rw [← hx]; exact List.mem_cons_self x rest))]
      exact ih (fun hm => h (List.mem_cons_of_mem _ hm))

/-- A flag with a following value occurs in the argument vector. -/
theorem mem_of_nextAfterFirst_eq_some (a : List String) (flag v : String)
    (h : nextAfterFirst a flag = some v) : flag ∈ a := by
  induction a with
  | nil => exact absurd h (by simp [nextAfterFirst])
  | cons x rest ih =>
      rw [nextAfterFirst] at h
      by_cases hx : x = flag
      · rw [← hx]
        exact List.mem_cons_self _ _
      · rw [if_neg hx] at h
        exact List.mem_cons_of_mem _ (ih h)

/-- The value following a flag occurs in the argument vector. -/
theorem value_mem_of_nextAfterFirst_eq_some (a : List String) (flag v : String)
    (h : nextAfterFirst a flag = some v) : v ∈ a := by
  induction a with
  | nil => exact absurd h (by simp [nextAfterFirst])
  | cons x rest ih =>
      rw [nextAfterFirst] at h
      by_cases hx : x = flag
      · rw [if_pos hx] at h
        cases rest with
        | nil => cases h
        | cons y t =>
            have hvy : v = y := (Option.some.inj h).symm
            rw [hvy]
            exact List.mem_cons_of_mem _ (List.mem_cons_self y t)
      · rw [if_neg hx] at h
        exact List.mem_cons_of_mem _ (ih h)

/-- Every member of the argument vector appears contiguously in the joined string. -/
theorem joinChars_parts (v : String) :
    ∀ a : List String, v ∈ a → ∃ u w, joinChars a = u ++ v.data ++ w := by
  intro a
  induction a with
  | nil => intro h; cases h
  | cons x rest ih =>
      intro hmem
      cases rest with
      | nil =>
          have hv : v = x := by
            rcases List.mem_cons.mp hmem with h | h
            · exact h
            · cases h
          refine ⟨[], [], ?_⟩
          rw [hv]
          simp [joinChars]
      | cons y t =>
          rcases List.mem_cons.mp hmem with h | h
          · refine ⟨[], ' ' :: joinChars (y :: t), ?_⟩
            rw [h]
            simp [joinChars]
          · obtain ⟨u, w, hw⟩ := ih h
            refine ⟨x.data ++ ' ' :: u, w, ?_⟩
            show x.data ++ ' ' :: joinChars (y :: t) = (x.data ++ ' ' :: u) ++ v.data ++ w
            rw [hw]
            simp

/-- A contiguous occurrence makes strContains true. -/
theorem strContains_of_parts (pat : List Char) :
    ∀ (u w : List Char), strContains (u ++ pat ++ w) pat = true := by
  intro u
  induction u with
  | nil =>
      intro w
      cases hpw : pat ++ w with
      | nil =>
          have hp : pat = [] := (List.append_eq_nil.mp hpw).1
          rw [List.nil_append, hpw, hp]
          rfl
      | cons c rest =>
          rw [List.nil_append, hpw]
          show (decide (pat <+: c :: rest) || strContains rest pat) = true
          have hpre : pat <+: c :: rest := ⟨w, hpw⟩
          simp [hpre]
  | cons c u' ih =>
      intro w
      show (decide (pat <+: c :: (u' ++ pat ++ w)) || strContains (u' ++ pat ++ w) pat) = true
      rw [ih w]
      simp

/-- A copy value occurring in the argument vector puts "copy" into the joined
lowercased string. -/
theorem strContains_joinedLower_copy (a : List String) (v : String) (hv : v ∈ a)
    (hcopy : lowerStr v = "copy") :
    strContains (joinedLower a) "copy".toList = true := by
  obtain ⟨u, w, hw⟩ := joinChars_parts v a hv
  unfold joinedLower
  rw [hw, List.map_append, List.map_append]
  have hdata : v.data.map Char.toLower = "copy".toList := congrArg String.data hcopy
  rw [hdata]
  exact strContains_of_parts "copy".toList (u.map Char.toLower) (w.map Char.toLower)

/-- Bridge from the decidable all-copy check to the per-flag statement: every
per-stream codec selection present carries the value copy. -/
theorem streamFlags_all_copy_of_all (a : List String)
    (hd : streamCodecFlags.all
      (fun f => (nextAfterFirst a f).all (fun v2 => lowerStr v2 == "copy")) = true) :
    ∀ f ∈ streamCodecFlags, ∀ v2, nextAfterFirst a f = some v2 → lowerStr v2 = "copy" := by
  intro f hf v2 hv2
  have hfa := List.all_eq_true.mp hd f hf
  rw [hv2] at hfa
  simpa using hfa

/-- Claim C8 counterexample: an argument vector that selects stream copy for video,
audio and subtitles with the long-form codec flags and has no filter flag is still
classified as requiring encode — refuting "an explicit stream-copy codec selection for
every relevant stream forces does-not-require-encode". The "codec not specified" test
only looks at the six short-form flags, so the default (requires encode) applies. -/
theorem C8_counterexample :
    infer_command_requires_encode longFormCopyArgs = true ∧
    nextAfterFirst longFormCopyArgs "-codec:v" = some "copy" ∧
    nextAfterFirst longFormCopyArgs "-codec:a" = some "copy" ∧
    nextAfterFirst longFormCopyArgs "-codec:s" = some "copy" ∧
    (filterFlags.all (fun f => !longFormCopyArgs.contains f)) = true := by
  exact ⟨by decide, by decide, by decide, by decide, by decide⟩

/-- Claim C8 (amended): when encodeCount is not supplied, the per-command inference
follows these rules: a filter-graph flag forces requires-encode; a "-c copy" selection
(with no filter flag) forces does-not-require-encode; stream copy selected through a
short-form flag also forces does-not-require-encode, provided no filter flag and no
bare "-c" occur and every per-stream codec selection present carries the value copy;
with neither "-c" nor any of the nine per-stream codec flags present, the default is
requires-encode; stream-copy spelled only with the long-form flags -codec:v, -codec:a,
-codec:s falls through to that default (the counterexample); and the inference is
conservative in the sense that a command is classified does-not-require-encode only
when it has no filter flag, selects a codec explicitly via "-c" or a short-form flag,
and carries an explicit copy marker. -/
theorem C8_encode_inference_rules (a : List String) (v : String) :
    (∀ f ∈ filterFlags, f ∈ a → infer_command_requires_encode a = true) ∧
    (nextAfterFirst a "-c" = some v → lowerStr v = "copy" → (∀ f ∈ filterFlags, f ∉ a) →
      infer_command_requires_encode a = false) ∧
    ((∀ f ∈ filterFlags, f ∉ a) → ("-c" : String) ∉ a →
      (∀ f ∈ streamCodecFlags, ∀ v2, nextAfterFirst a f = some v2 → lowerStr v2 = "copy") →
      (∃ f ∈ shortCodecFlags, ∃ v2, nextAfterFirst a f = some v2 ∧ lowerStr v2 = "copy") →
      infer_command_requires_encode a = false) ∧
    (("-c" : String) ∉ a → (∀ f ∈ streamCodecFlags, f ∉ a) →
      infer_command_requires_encode a = true) ∧
    (infer_command_requires_encode a = false →
      (∀ f ∈ filterFlags, f ∉ a) ∧
      (("-c" : String) ∈ a ∨ ∃ f ∈ shortCodecFlags, f ∈ a) ∧
      ((nextAfterFirst a "-c").any (fun w => lowerStr w == "copy") = true ∨
        strContains (joinedLower a) "copy".toList = true)) := by
  refine ⟨?_, ?_, ?_, ?_, ?_⟩
  · intro f hf hfa
    have h1 : filterFlags.any (fun f => a.contains f) = true :=
      List.any_eq_true.mpr ⟨f, hf, by simpa using hfa⟩
    rw [infer_command_requires_encode, if_pos h1]
  · intro hv hcopy hnof
    have h1 : filterFlags.any (fun f => a.contains f) = false := by
      rw [List.any_eq_false]
      intro f hf
      simpa using hnof f hf
    have h2 : (nextAfterFirst a "-c").any (fun w => lowerStr w == "copy") = true := by
      rw [hv]
      simpa using hcopy
    rw [infer_command_requires_encode]
    rw [if_neg (by rw [h1]; simp), if_pos h2]
  · intro hnof hc hall hex
    obtain ⟨f, hfshort, v2, hv2, hv2copy⟩ := hex
    have h1 : filterFlags.any (fun g => a.contains g) = false := by
      rw [List.any_eq_false]
      intro g hg
      simpa using hnof g hg
    have h2 : (nextAfterFirst a "-c").any (fun w => lowerStr w == "copy") = false := by
      rw [nextAfterFirst_eq_none_of_not_mem a "-c" hc]
      rfl
    have h3 : streamCodecFlags.any (fun g =>
        (nextAfterFirst a g).any (fun w => lowerStr w != "copy")) = false := by
      rw [List.any_eq_false]
      intro g hg
      cases hng : nextAfterFirst a g with
      | none => simp [Option.any]
      | some v3 =>
          have hv3 := hall g hg v3 hng
          simp [Option.any, hv3]
    have hfa : f ∈ a := mem_of_nextAfterFirst_eq_some a f v2 hv2
    have h4 : (!a.contains "-c" && shortCodecFlags.all (fun g => !a.contains g)) = false := by
      apply Bool.and_eq_false_iff.mpr
      right
      rw [List.all_eq_false]
      exact ⟨f, hfshort, by simp [hfa]⟩
    have h5 : (strContains (joinedLower a) "copy".toList &&
        !a.contains "-vf" && !a.contains "-filter_complex" && !a.contains "-af") = true := by
      have hcopysub := strContains_joinedLower_copy a v2
        (value_mem_of_nextAfterFirst_eq_some a f v2 hv2) hv2copy
      have hvf : (!a.contains "-vf") = true := by
        simpa using hnof "-vf" (by decide)
      have hfc : (!a.contains "-filter_complex") = true := by
        simpa using hnof "-filter_complex" (by decide)
      have haf : (!a.contains "-af") = true := by
        simpa using hnof "-af" (by decide)
      rw [hcopysub, hvf, hfc, haf]
      rfl
    rw [infer_command_requires_encode, if_neg (by rw [h1]; simp), if_neg (by rw [h2]; simp),
      if_neg (by rw [h3]; simp), if_neg (by rw [h4]; simp), if_pos h5]
  · intro hc hflags
    have h2 : (nextAfterFirst a "-c").any (fun w => lowerStr w == "copy") = false := by
      rw [nextAfterFirst_eq_none_of_not_mem a "-c" hc]
      rfl
    have h3 : streamCodecFlags.any (fun f =>
        (nextAfterFirst a f).any (fun v => lowerStr v != "copy")) = false := by
      rw [List.any_eq_false]
      intro f hf
      rw [nextAfterFirst_eq_none_of_not_mem a f (hflags f hf)]
      simp
    have h4 : (!a.contains "-c" && shortCodecFlags.all (fun f => !a.contains f)) = true := by
      refine Bool.and_eq_true .. |>.mpr ⟨by simpa using hc, ?_⟩
      rw [List.all_eq_true]
      intro f hf
      have hmem : f ∈ streamCodecFlags := by fin_cases hf <;> simp [streamCodecFlags]
      simpa using hflags f hmem
    have hn2 : ¬((nextAfterFirst a "-c").any (fun w => lowerStr w == "copy") = true) := by
      simp [h2]
    have hn3 : ¬(streamCodecFlags.any (fun f =>
        (nextAfterFirst a f).any (fun v => lowerStr v != "copy")) = true) := by
      simp [h3]
    by_cases h1 : filterFlags.any (fun f => a.contains f) = true
    · rw [infer_command_requires_encode, if_pos h1]
    · rw [infer_command_requires_encode, if_neg h1, if_neg hn2, if_neg hn3, if_pos h4]
  · intro h
    rw [infer_command_requires_encode] at h
    split_ifs at h with h1 h2 h3 h4 h5
    · -- "-c copy" branch: no filter flags, -c present, copy marker present
      refine ⟨?_, ?_, Or.inl h2⟩
      · intro f hf hfa
        exact h1 (List.any_eq_true.mpr ⟨f, hf, by simpa using hfa⟩)
      · cases ho : nextAfterFirst a "-c" with
        | none => rw [ho] at h2; exact absurd h2 (by simp [Option.any])
        | some w => exact Or.inl (mem_of_nextAfterFirst_eq_some a "-c" w ho)
    · -- joined-contains-copy branch
      refine ⟨?_, ?_, Or.inr (Bool.and_eq_true .. |>.mp
        (Bool.and_eq_true .. |>.mp (Bool.and_eq_true .. |>.mp h5).1).1).1⟩
      · intro f hf hfa
        exact h1 (List.any_eq_true.mpr ⟨f, hf, by simpa using hfa⟩)
      · have h4' : (!a.contains "-c" && shortCodecFlags.all (fun f => !a.contains f)) = false := by
          simpa using h4
        rcases Bool.and_eq_false_iff.mp h4' with hcl | hcr
        · exact Or.inl (by simpa using hcl)
        · rcases List.all_eq_false.mp hcr with ⟨f, hf, hfa⟩
          exact Or.inr ⟨f, hf, by simpa using hfa⟩

/-- Witness for C8 at concrete argument vectors: a filtered command, a "-c copy"
command, and a bare command with no codec selection. -/
theorem C8_witness :
    (("-vf" : String) ∈ filterFlags ∧ ("-vf" : String) ∈ ["-i", "x", "-vf", "scale"] ∧
      infer_command_requires_encode ["-i", "x", "-vf", "scale"] = true) ∧
    (nextAfterFirst ["-i", "x", "-c", "copy"] "-c" = some "copy" ∧
      infer_command_requires_encode ["-i", "x", "-c", "copy"] = false) ∧
    (("-c:v" : String) ∈ shortCodecFlags ∧
      nextAfterFirst ["-i", "x", "-c:v", "copy", "-c:a", "copy"] "-c:v" = some "copy" ∧
      infer_command_requires_encode ["-i", "x", "-c:v", "copy", "-c:a", "copy"] = false) ∧
    (("-c" : String) ∉ ["-i", "x", "out.mp4"] ∧
      infer_command_requires_encode ["-i", "x", "out.mp4"] = true) :=
  ⟨⟨by decide, by decide,
    (C8_encode_inference_rules ["-i", "x", "-vf", "scale"] "copy").1 "-vf" (by decide) (by decide)⟩,
   ⟨by decide,
    (C8_encode_inference_rules ["-i", "x", "-c", "copy"] "copy").2.1 (by decide) (by decide)
      (by decide)⟩,
   ⟨by decide, by decide,
    (C8_encode_inference_rules ["-i", "x", "-c:v", "copy", "-c:a", "copy"] "copy").2.2.1
      (by decide) (by decide)
      (streamFlags_all_copy_of_all ["-i", "x", "-c:v", "copy", "-c:a", "copy"] (by decide))
      ⟨"-c:v", by decide, "copy", by decide, by decide⟩⟩,
   ⟨by decide,
    (C8_encode_inference_rules ["-i", "x", "out.mp4"] "copy").2.2.2.1 (by decide) (by decide)⟩⟩

/-- No command with an empty args vector is ever handed to the subprocess runner. -/
theorem attemptGo_spawned_args_ne_nil (exec : Cmd → Except String Unit)
    (tid lbl nm : String) (total : Nat) :
    ∀ (cmds : List Cmd) (i : Nat) (done : List HistoryEntry),
      ∀ c ∈ (attemptGo exec tid lbl nm total i done cmds).spawned, c.args ≠ [] := by
  intro cmds
  induction cmds with
  | nil =>
      intro i done c hc
      simp [attemptGo] at hc
  | cons c0 rest ih =>
      intro i done c hc
      rw [attemptGo] at hc
      by_cases h0 : c0.args = []
      · rw [if_pos h0] at hc
        simp at hc
      · rw [if_neg h0] at hc
        cases hex : exec c0 with
        | ok u =>
            rw [hex] at hc
            simp only [List.mem_cons] at hc
            rcases hc with hc | hc
            · rw [hc]; exact h0
            · exact ih (i + 1) _ c hc
        | error e =>
            rw [hex] at hc
            simp only [List.mem_singleton] at hc
            rw [hc]; exact h0

/-- Every candidate in the attempted trace of the search loop has a nonempty commands
list, provided the accumulator does. -/
theorem searchLoop_tried_commands_ne_nil (exec : Cmd → Except String Unit) :
    ∀ (l tried : List (Nat × Candidate)),
      (∀ q ∈ tried, q.2.commands ≠ []) →
      ∀ p ∈ (searchLoop exec l tried).1, p.2.commands ≠ [] := by
  intro l
  induction l with
  | nil =>
      intro tried htr p hp
      rw [searchLoop] at hp
      rw [List.mem_reverse] at hp
      exact htr p hp
  | cons hd rest ih =>
      intro tried htr p hp
      obtain ⟨orig, cand⟩ := hd
      rw [searchLoop] at hp
      by_cases h0 : cand.commands = []
      · rw [if_pos h0] at hp
        exact ih tried htr p hp
      · rw [if_neg h0] at hp
        have hcons : ∀ q ∈ (orig, cand) :: tried, q.2.commands ≠ [] := by
          intro q hq
          rcases List.mem_cons.mp hq with hq | hq
          · rw [hq]; exact h0
          · exact htr q hq
        cases hex : runAttempt exec cand.commands with
        | ok u =>
            rw [hex] at hp
            simp only [List.mem_reverse] at hp
            exact hcons p hp
        | error e =>
            rw [hex] at hp
            by_cases hfb : cand.fallbackCommands ≠ []
            · rw [if_pos hfb] at hp
              cases hfex : runAttempt exec cand.fallbackCommands with
              | ok u =>
                  rw [hfex] at hp
                  simp only [List.mem_reverse] at hp
                  exact hcons p hp
              | error fe =>
                  rw [hfex] at hp
                  exact ih _ hcons p hp
            · rw [if_neg hfb] at hp
              exact ih _ hcons p hp

/-- Claim C7 counterexample: a pipeline whose command list is empty is not rejected as a
validation error — run_pipeline reports success with an empty history, even under an
oracle where every spawn would fail (so nothing was consulted, and nothing rejected). -/
theorem C7_counterexample :
    (run_pipeline failExec "t" "L" [] none).result =
      .ok { label := "L", attempt := "primary", history := [] } ∧
    (run_pipeline failExec "t" "L" [] none).spawned = [] :=
  ⟨rfl, rfl⟩

/-- Claim C7 (amended): the validation that exists rejects a command whose args vector
is empty (ValueError before that or any later command spawns), and run_search rejects an
empty candidates list before anything runs; but an empty pipeline command list is not
rejected — it trivially succeeds without spawning — and a search candidate with an empty
commands list is silently skipped (never attempted), not rejected. -/
theorem C7_empty_command_validation (exec : Cmd → Except String Unit)
    (tid lbl nm : String) (c : Cmd) (rest cmds : List Cmd) (cs : List Candidate)
    (p : Nat × Candidate) :
    (c.args = [] →
      (attempt exec tid lbl nm (c :: rest)).result = .error "ffmpeg command args is empty" ∧
      (attempt exec tid lbl nm (c :: rest)).spawned = []) ∧
    (∀ c2 ∈ (attempt exec tid lbl nm cmds).spawned, c2.args ≠ []) ∧
    run_search exec [] = ([], .error .emptyCandidates) ∧
    (p ∈ (run_search exec cs).1 → p.2.commands ≠ []) ∧
    (run_pipeline exec tid lbl [] none).result =
      .ok { label := lbl, attempt := "primary", history := [] } := by
  refine ⟨?_, ?_, rfl, ?_, rfl⟩
  · intro h
    rw [attempt, attemptGo, if_pos h]
    exact ⟨rfl, rfl⟩
  · exact attemptGo_spawned_args_ne_nil exec tid lbl nm cmds.length cmds 0 []
  · intro hp
    rw [run_search] at hp
    by_cases hcs : cs = []
    · rw [if_pos hcs] at hp
      simp at hp
    · rw [if_neg hcs] at hp
      exact searchLoop_tried_commands_ne_nil exec (orderedCandidates cs) [] (by simp) p hp

/-- Witness for C7: a leading empty-args command is rejected without spawning, and the
empty-commands candidate of a concrete search is absent from the attempted trace. -/
theorem C7_witness :
    (({ args := [] } : Cmd).args = [] ∧
      (attempt failExec "t" "L" "primary" [{ args := [] }, { args := ["B"] }]).result =
        .error "ffmpeg command args is empty" ∧
      (attempt failExec "t" "L" "primary" [{ args := [] }, { args := ["B"] }]).spawned = []) ∧
    ((0, ({ commands := [{ args := ["b"] }] } : Candidate)) ∈
        (run_search failExec [{ commands := [{ args := ["b"] }] }, { commands := [] }]).1 ∧
      ({ commands := [{ args := ["b"] }] } : Candidate).commands ≠ []) :=
  ⟨⟨rfl,
    (C7_empty_command_validation failExec "t" "L" "primary" { args := [] } [{ args := ["B"] }]
      [] [] (0, { commands := [] })).1 rfl⟩,
   ⟨by decide,
    (C7_empty_command_validation failExec "t" "L" "primary" { args := [] } []
      [] [{ commands := [{ args := ["b"] }] }, { commands := [] }]
      (0, { commands := [{ args := ["b"] }] })).2.2.2.1 (by decide)⟩⟩

/-- A key that is absent from an object is not found. -/
theorem find?_eq_none_of_not_keyed (m : Meta) (k : String) (hc : k ∉ m.map Prod.fst) :
    List.find? (fun kv => kv.1 = k) m = none := by
  rw [List.find?_eq_none]
  intro kv hkv hp
  exact hc (by
    simp only [decide_eq_true_eq] at hp
    exact hp ▸ List.mem_map_of_mem Prod.fst hkv)

/-- Overwriting an existing key makes its value findable. -/
theorem find?_map_overwrite (k : String) (v : MVal) :
    ∀ m : Meta, k ∈ m.map Prod.fst →
      List.find? (fun kv => kv.1 = k) (m.map (fun kv => if kv.1 = k then (k, v) else kv)) =
        some (k, v) := by
  intro m
  induction m with
  | nil => intro hc; simp at hc
  | cons kv rest ih =>
      intro hc
      by_cases hk : kv.1 = k
      · simp [List.find?_cons, hk]
      · rw [List.map_cons, if_neg hk, List.find?_cons]
        have hkd : decide (kv.1 = k) = false := by simp [hk]
        rw [hkd]
        apply ih
        simp only [List.map_cons, List.mem_cons] at hc
        rcases hc with hc | hc
        · exact absurd hc.symm hk
        · exact hc

/-- Overwriting key k leaves the lookup of a different key unchanged. -/
theorem find?_map_overwrite_ne (k k' : String) (v : MVal) (h : k' ≠ k) :
    ∀ m : Meta,
      List.find? (fun kv => kv.1 = k') (m.map (fun kv => if kv.1 = k then (k, v) else kv)) =
        List.find? (fun kv => kv.1 = k') m := by
  intro m
  induction m with
  | nil => rfl
  | cons kv rest ih =>
      by_cases hk : kv.1 = k
      · rw [List.map_cons, if_pos hk, List.find?_cons, List.find?_cons]
        have h1 : decide ((k, v).1 = k') = false := by simp [Ne.symm h]
        have h2 : decide (kv.1 = k') = false := by
          rw [hk]
          simp [Ne.symm h]
        rw [h1, h2]
        exact ih
      · rw [List.map_cons, if_neg hk, List.find?_cons, List.find?_cons]
        cases hd : decide (kv.1 = k')
        · exact ih
        · rfl

/-- Setting a key makes it findable with the new value. -/
theorem metaGet_metaSet_self (m : Meta) (k : String) (v : MVal) :
    metaGet (metaSet m k v) k = some v := by
  unfold metaSet metaGet
  by_cases hc : (m.map Prod.fst).contains k
  · rw [if_pos hc, find?_map_overwrite k v m (by simpa using hc)]
    rfl
  · rw [if_neg hc, List.find?_append,
        find?_eq_none_of_not_keyed m k (by simpa using hc)]
    simp

/-- Setting a key leaves every other key unchanged. -/
theorem metaGet_metaSet_ne (m : Meta) (k k' : String) (v : MVal) (h : k' ≠ k) :
    metaGet (metaSet m k v) k' = metaGet m k' := by
  unfold metaSet metaGet
  by_cases hc : (m.map Prod.fst).contains k
  · rw [if_pos hc, find?_map_overwrite_ne k k' v h m]
  · rw [if_neg hc, List.find?_append]
    have hone : List.find? (fun kv => kv.1 = k') [(k, v)] = none := by
      simp [List.find?_cons, Ne.symm h]
    rw [hone, Option.or_none]

/-- Merging a two-key object: the first key gets its merged value. -/
theorem metaGet_merge_pair_fst (m : Meta) (k1 k2 : String) (v1 v2 : MVal) (h : k1 ≠ k2) :
    metaGet (metaMerge m [(k1, v1), (k2, v2)]) k1 = some v1 := by
  show metaGet (metaSet (metaSet m k1 v1) k2 v2) k1 = some v1
  rw [metaGet_metaSet_ne _ _ _ _ h, metaGet_metaSet_self]

/-- Merging a single-key object leaves other keys unchanged. -/
theorem metaGet_merge_single_ne (m : Meta) (k k' : String) (v : MVal) (h : k' ≠ k) :
    metaGet (metaMerge m [(k, v)]) k' = metaGet m k' := by
  show metaGet (metaSet m k v) k' = metaGet m k'
  exact metaGet_metaSet_ne m k k' v h

/-- A progress update whose extra carries a single "ffmpeg" key persists exactly that
value under the "ffmpeg" key of the merged meta. -/
theorem metaGet_update_ffmpeg (t : TaskRow) (p : Int) (s msg : String) (F : MVal) (now : Nat) :
    metaGet (update_task_progress t p s msg [("ffmpeg", F)] now).meta "ffmpeg" = some F := by
  show metaGet (metaMerge t.meta (metaSet [("ffmpeg", F)] "updatedAt" (.num (Int.ofNat now))))
      "ffmpeg" = some F
  have hset : metaSet [("ffmpeg", F)] "updatedAt" (.num (Int.ofNat now)) =
      [("ffmpeg", F), ("updatedAt", .num (Int.ofNat now))] := rfl
  rw [hset]
  exact metaGet_merge_pair_fst t.meta "ffmpeg" "updatedAt" F _ (by decide)

/-- finish_task with no extra meta does not disturb the "ffmpeg" key. -/
theorem metaGet_finish_ffmpeg (t : TaskRow) (r : MVal) (now : Nat) :
    metaGet (finish_task t r [] now).meta "ffmpeg" = metaGet t.meta "ffmpeg" := by
  show metaGet (metaMerge t.meta (metaSet [] "updatedAt" (.num (Int.ofNat now)))) "ffmpeg" =
    metaGet t.meta "ffmpeg"
  have hset : metaSet ([] : Meta) "updatedAt" (.num (Int.ofNat now)) =
      [("updatedAt", .num (Int.ofNat now))] := rfl
  rw [hset]
  exact metaGet_merge_single_ne t.meta "updatedAt" "ffmpeg" _ (by decide)

/-- An attempt that succeeds ran every remaining step in order, accumulating success
entries with consecutive indices. -/
theorem attemptGo_ok_history (exec : Cmd → Except String Unit) (tid lbl nm : String)
    (total : Nat) :
    ∀ (cmds : List Cmd) (i : Nat) (done : List HistoryEntry),
      (attemptGo exec tid lbl nm total i done cmds).result = .ok () →
      (attemptGo exec tid lbl nm total i done cmds).history = done ++ successRange i cmds.length := by
  intro cmds
  induction cmds with
  | nil =>
      intro i done _
      simp [attemptGo, successRange]
  | cons c rest ih =>
      intro i done hok
      rw [attemptGo] at hok ⊢
      by_cases h0 : c.args = []
      · rw [if_pos h0] at hok
        exact absurd hok (by simp)
      · rw [if_neg h0] at hok ⊢
        cases hex : exec c with
        | ok u =>
            rw [hex] at hok
            dsimp only at hok ⊢
            have hh := ih (i + 1) (done ++ [{ index := i, status := .success }]) hok
            rw [hh]
            rw [List.length_cons]
            unfold successRange
            rw [List.range'_succ]
            simp [successRange]
        | error e =>
            rw [hex] at hok
            dsimp only at hok
            exact absurd hok (by simp)

/-- The per-entry shape of the success history. -/
theorem successRange_facts (i n : Nat) :
    (successRange i n).map HistoryEntry.index = List.range' i n ∧
    (successRange i n).length = n ∧
    ∀ en ∈ successRange i n, en.status = HStatus.success := by
  refine ⟨?_, ?_, ?_⟩
  · unfold successRange
    rw [List.map_map]
    show List.map (fun j => j) (List.range' i n) = List.range' i n
    simp
  · unfold successRange
    simp
  · intro en hen
    unfold successRange at hen
    rcases List.mem_map.mp hen with ⟨j, _, hj⟩
    rw [← hj]

/-- Claim C5 counterexample: with a failing primary command and a succeeding one-command
fallback, the task does end finished, but the history retained in the final task metadata
(and in the result) is exactly the fallback attempt's single success entry: the failed
primary attempt is not recorded there, because every progress update rewrites the same
top-level "ffmpeg" key of the shallow-merged meta. -/
theorem C5_counterexample :
    (runPipelineTask fallbackScenarioExec "7" "L" fallbackScenarioRow primaryCmdsC5
        (some fallbackCmdsC5) 99).status = .finished ∧
    metaGet (runPipelineTask fallbackScenarioExec "7" "L" fallbackScenarioRow primaryCmdsC5
        (some fallbackCmdsC5) 99).meta "ffmpeg" =
      some (.ffmpeg
        { jobId := some "7"
          label := some "L"
          attempt := some "fallback"
          history := some [{ index := 0, status := .success }]
          error := none }) ∧
    (runPipelineTask fallbackScenarioExec "7" "L" fallbackScenarioRow primaryCmdsC5
        (some fallbackCmdsC5) 99).result =
      some (.pipeResult
        { label := "L"
          attempt := "fallback"
          history := [{ index := 0, status := .success }] }) := by
  exact ⟨by decide, by decide, by decide⟩

/-- Claim C5 (amended): with a failing primary list and a supplied nonempty fallback list,
run_pipeline restarts fully at step 0 of the fallback (fresh history with indices
0..m-1); a final failure is raised only if the primary and the supplied fallback both
fail; when the fallback succeeds the task ends finished and the history retained in the
final task metadata is the full fallback attempt history — the failed primary attempt
appears only in intermediate progress updates and is overwritten, not retained. -/
theorem C5_fallback_restart_and_final_history (exec : Cmd → Except String Unit)
    (tid lbl : String) (cmds fb : List Cmd) (row : TaskRow) (now : Nat) (e : String) :
    ((run_pipeline exec tid lbl cmds (some fb)).result.isOk =
      ((attempt exec tid lbl "primary" cmds).result.isOk ||
        (!fb.isEmpty && (attempt exec tid lbl "fallback" fb).result.isOk))) ∧
    ((attempt exec tid lbl "primary" cmds).result = .error e → fb ≠ [] →
      (attempt exec tid lbl "fallback" fb).result = .ok () →
      (run_pipeline exec tid lbl cmds (some fb)).result =
        .ok { label := lbl, attempt := "fallback", history := successRange 0 fb.length } ∧
      (attempt exec tid lbl "fallback" fb).history = successRange 0 fb.length ∧
      (successRange 0 fb.length).map HistoryEntry.index = List.range fb.length ∧
      (∀ en ∈ successRange 0 fb.length, en.status = HStatus.success) ∧
      (runPipelineTask exec tid lbl row cmds (some fb) now).status = .finished ∧
      metaGet (runPipelineTask exec tid lbl row cmds (some fb) now).meta "ffmpeg" =
        some (.ffmpeg
          { jobId := some tid
            label := some lbl
            attempt := some "fallback"
            history := some (successRange 0 fb.length)
            error := none })) := by
  constructor
  · cases hps : (attempt exec tid lbl "primary" cmds).result with
    | ok u =>
        unfold run_pipeline
        rw [hps]
        dsimp only
        simp [Except.isOk, Except.toBool]
    | error e2 =>
        unfold run_pipeline
        rw [hps]
        dsimp only
        by_cases hfb0 : fb = []
        · subst hfb0
          simp [Except.isOk, Except.toBool]
        · rw [if_neg hfb0]
          cases hfs : (attempt exec tid lbl "fallback" fb).result with
          | ok u =>
              dsimp only
              simp [Except.isOk, Except.toBool, List.isEmpty_iff, hfb0]
          | error fe =>
              dsimp only
              simp [Except.isOk, Except.toBool, List.isEmpty_iff, hfb0]
  · intro hp hfb hf
    have hf' : (attemptGo exec tid lbl "fallback" fb.length 0 [] fb).result = .ok () := hf
    have hhist : (attempt exec tid lbl "fallback" fb).history = successRange 0 fb.length := by
      have hh := attemptGo_ok_history exec tid lbl "fallback" fb.length fb 0 [] hf'
      simpa [attempt] using hh
    have hrp : run_pipeline exec tid lbl cmds (some fb) =
        { events := (attempt exec tid lbl "primary" cmds).events ++
            (attempt exec tid lbl "fallback" fb).events ++
            [mkEvent 100 "done" (lbl ++ ": done (fallback)")
              (doneExtra tid
                { label := lbl
                  attempt := "fallback"
                  history := successRange 0 fb.length })]
          spawned := (attempt exec tid lbl "primary" cmds).spawned ++
            (attempt exec tid lbl "fallback" fb).spawned
          result := .ok
            { label := lbl
              attempt := "fallback"
              history := successRange 0 fb.length } } := by
      unfold run_pipeline
      rw [hp]
      dsimp only
      rw [if_neg hfb, hf]
      dsimp only
      rw [hhist]
    refine ⟨?_, hhist, ?_, (successRange_facts 0 fb.length).2.2, ?_, ?_⟩
    · rw [hrp]
    · rw [(successRange_facts 0 fb.length).1, List.range_eq_range']
    · unfold runPipelineTask
      rw [hrp]
      rfl
    · unfold runPipelineTask
      rw [hrp]
      dsimp only
      rw [metaGet_finish_ffmpeg]
      unfold applyEvents
      rw [List.foldl_append]
      dsimp only [List.foldl_cons, List.foldl_nil]
      exact metaGet_update_ffmpeg _ _ _ _ _ _

/-- Witness for C5: the concrete failing-primary, succeeding-fallback scenario. -/
theorem C5_witness :
    (attempt fallbackScenarioExec "7" "L" "primary" primaryCmdsC5).result =
      .error "ffmpeg exit 1: boom" ∧
    fallbackCmdsC5 ≠ [] ∧
    (attempt fallbackScenarioExec "7" "L" "fallback" fallbackCmdsC5).result = .ok () ∧
    (run_pipeline fallbackScenarioExec "7" "L" primaryCmdsC5 (some fallbackCmdsC5)).result =
      .ok
        { label := "L"
          attempt := "fallback"
          history := successRange 0 fallbackCmdsC5.length } :=
  ⟨rfl, by decide, rfl,
   ((C5_fallback_restart_and_final_history fallbackScenarioExec "7" "L" primaryCmdsC5
      fallbackCmdsC5 fallbackScenarioRow 99 "ffmpeg exit 1: boom").2
      rfl (by decide) rfl).1⟩

/-- svLt is transitive. -/
theorem svLt_trans {a b c : Option Rat} (h1 : svLt a b) (h2 : svLt b c) : svLt a c := by
  cases a with
  | none => exact absurd h1 (by simp [svLt])
  | some x =>
      cases b with
      | none => exact absurd h2 (by simp [svLt])
      | some y =>
          cases c with
          | none => trivial
          | some z => exact lt_trans (α := ℚ) h1 h2

/-- svLt is trichotomous. -/
theorem svLt_trichotomy (a b : Option Rat) : svLt a b ∨ a = b ∨ svLt b a := by
  cases a with
  | none =>
      cases b with
      | none => exact Or.inr (Or.inl rfl)
      | some y => exact Or.inr (Or.inr trivial)
  | some x =>
      cases b with
      | none => exact Or.inl trivial
      | some y =>
          rcases lt_trichotomy x y with h | h | h
          · exact Or.inl h
          · exact Or.inr (Or.inl (by rw [h]))
          · exact Or.inr (Or.inr h)

/-- The strict key order is transitive. -/
theorem keyLt_trans {k1 k2 k3 : SortKey} (h1 : keyLt k1 k2) (h2 : keyLt k2 k3) :
    keyLt k1 k3 := by
  unfold keyLt at h1 h2 ⊢
  rcases h1 with h1 | ⟨e1, h1⟩
  · rcases h2 with h2 | ⟨e2, _⟩
    · exact Or.inl (Nat.lt_trans h1 h2)
    · exact Or.inl (e2 ▸ h1)
  · rcases h2 with h2 | ⟨e2, h2⟩
    · exact Or.inl (e1 ▸ h2)
    · refine Or.inr ⟨e1.trans e2, ?_⟩
      rcases h1 with h1 | ⟨f1, h1⟩
      · rcases h2 with h2 | ⟨f2, _⟩
        · exact Or.inl (Nat.lt_trans h1 h2)
        · exact Or.inl (f2 ▸ h1)
      · rcases h2 with h2 | ⟨f2, h2⟩
        · exact Or.inl (f1 ▸ h2)
        · refine Or.inr ⟨f1.trans f2, ?_⟩
          rcases h1 with h1 | ⟨g1, h1⟩
          · rcases h2 with h2 | ⟨g2, _⟩
            · exact Or.inl (svLt_trans h1 h2)
            · exact Or.inl (g2 ▸ h1)
          · rcases h2 with h2 | ⟨g2, h2⟩
            · exact Or.inl (g1 ▸ h2)
            · exact Or.inr ⟨g1.trans g2, Nat.lt_trans h1 h2⟩

/-- The key order is trichotomous. -/
theorem keyLt_trichotomy (k1 k2 : SortKey) : keyLt k1 k2 ∨ k1 = k2 ∨ keyLt k2 k1 := by
  obtain ⟨e1, h1, s1, i1⟩ := k1
  obtain ⟨e2, h2, s2, i2⟩ := k2
  rcases Nat.lt_trichotomy e1 e2 with he | he | he
  · exact Or.inl (Or.inl he)
  · rcases Nat.lt_trichotomy h1 h2 with hh | hh | hh
    · exact Or.inl (Or.inr ⟨he, Or.inl hh⟩)
    · rcases svLt_trichotomy s1 s2 with hs | hs | hs
      · exact Or.inl (Or.inr ⟨he, Or.inr ⟨hh, Or.inl hs⟩⟩)
      · rcases Nat.lt_trichotomy i1 i2 with hi | hi | hi
        · exact Or.inl (Or.inr ⟨he, Or.inr ⟨hh, Or.inr ⟨hs, hi⟩⟩⟩)
        · refine Or.inr (Or.inl ?_)
          rw [he, hh, hs, hi]
        · exact Or.inr (Or.inr (Or.inr ⟨he.symm, Or.inr ⟨hh.symm, Or.inr ⟨hs.symm, hi⟩⟩⟩))
      · exact Or.inr (Or.inr (Or.inr ⟨he.symm, Or.inr ⟨hh.symm, Or.inl hs⟩⟩))
    · exact Or.inr (Or.inr (Or.inr ⟨he.symm, Or.inl hh⟩))
  · exact Or.inr (Or.inr (Or.inl he))

instance : IsTrans (Nat × Candidate) candLE where
  trans := by
    intro a b c hab hbc
    rcases hab with hab | hab
    · rcases hbc with hbc | hbc
      · exact Or.inl (keyLt_trans hab hbc)
      · exact Or.inl (hbc ▸ hab)
    · rcases hbc with hbc | hbc
      · exact Or.inl (hab ▸ hbc)
      · exact Or.inr (hab.trans hbc)

instance : IsTotal (Nat × Candidate) candLE where
  total := by
    intro a b
    rcases keyLt_trichotomy (sort_key a) (sort_key b) with h | h | h
    · exact Or.inl (Or.inl h)
    · exact Or.inl (Or.inr h)
    · exact Or.inr (Or.inl h)

/-- The sorted candidate list is sorted by the key preorder. -/
theorem sorted_orderedCandidates (cs : List Candidate) :
    List.Sorted candLE (orderedCandidates cs) :=
  List.sorted_insertionSort candLE cs.enum

/-- The original indices of the sorted candidates are pairwise distinct. -/
theorem nodup_fst_orderedCandidates (cs : List Candidate) :
    ((orderedCandidates cs).map Prod.fst).Nodup := by
  have hperm : (orderedCandidates cs).Perm cs.enum := List.perm_insertionSort candLE cs.enum
  have h2 := (hperm.map Prod.fst).nodup_iff
  rw [h2, List.enum_map_fst]
  exact List.nodup_range cs.length

/-- The sorted candidate list is strictly ascending in the key order: the keys of any
two candidates in list order are related by keyLt (ties are impossible because the idx
component of the key is the distinct original index). -/
theorem pairwise_candLt_orderedCandidates (cs : List Candidate) :
    List.Pairwise candLt (orderedCandidates cs) := by
  have hs : List.Pairwise candLE (orderedCandidates cs) := sorted_orderedCandidates cs
  have hne : List.Pairwise (fun a b : Nat × Candidate => a.1 ≠ b.1) (orderedCandidates cs) :=
    List.pairwise_map.mp (nodup_fst_orderedCandidates cs)
  refine (hs.and hne).imp ?_
  intro a b hab
  rcases hab.1 with h | h
  · exact h
  · exfalso
    apply hab.2
    have ha : (sort_key a).idx = a.1 := rfl
    have hb : (sort_key b).idx = b.1 := rfl
    rw [← ha, ← hb, h]

/-- Full characterization of the search loop: it attempts exactly the live candidates up
to and including the first succeeding one (all of them when none succeeds), and reports
the first success, or the exhaustion error when every live candidate fails. -/
theorem searchLoop_eq (exec : Cmd → Except String Unit) :
    ∀ (l tried : List (Nat × Candidate)),
      searchLoop exec l tried =
        (tried.reverse ++ loopTriedSpec exec l, loopResultSpec exec l) := by
  intro l
  induction l with
  | nil =>
      intro tried
      simp [searchLoop, loopTriedSpec, loopResultSpec]
  | cons hd rest ih =>
      intro tried
      obtain ⟨orig, cand⟩ := hd
      rw [searchLoop]
      by_cases h0 : cand.commands = []
      · rw [if_pos h0, ih tried]
        have hf : (!cand.commands.isEmpty) = false := by simp [h0]
        simp [loopTriedSpec, loopResultSpec, List.filter_cons, hf]
      · rw [if_neg h0]
        have hne : (!cand.commands.isEmpty) = true := by simp [h0]
        cases hex : runAttempt exec cand.commands with
        | ok u =>
            have hsucc : candSucceeds exec cand = true := by
              unfold candSucceeds
              rw [hex]
            simp [loopTriedSpec, loopResultSpec, List.filter_cons, hne,
              List.dropWhile_cons, List.takeWhile_cons, hsucc, hex,
              Except.isOk, Except.toBool, List.reverse_cons]
        | error e =>
            have hfail : candSucceeds exec cand =
                (cand.fallbackCommands ≠ [] && (runAttempt exec cand.fallbackCommands).isOk) := by
              unfold candSucceeds
              rw [hex]
            by_cases hfb : cand.fallbackCommands ≠ []
            · rw [if_pos hfb]
              cases hfex : runAttempt exec cand.fallbackCommands with
              | ok u =>
                  have hsucc : candSucceeds exec cand = true := by
                    rw [hfail, hfex]
                    simp [Except.isOk, Except.toBool, hfb]
                  simp [loopTriedSpec, loopResultSpec, List.filter_cons, hne,
                    List.dropWhile_cons, List.takeWhile_cons, hsucc, hex,
                    Except.isOk, Except.toBool, List.reverse_cons]
              | error fe =>
                  have hsucc : candSucceeds exec cand = false := by
                    rw [hfail, hfex]
                    simp [Except.isOk, Except.toBool]
                  rw [ih ((orig, cand) :: tried)]
                  simp [loopTriedSpec, loopResultSpec, List.filter_cons, hne,
                    List.dropWhile_cons, List.takeWhile_cons, hsucc,
                    List.reverse_cons, List.append_assoc]
                  cases List.dropWhile (fun p => !candSucceeds exec p.2)
                      (List.filter (fun p => !p.2.commands.isEmpty) rest) <;> rfl
            · rw [if_neg hfb]
              have hsucc : candSucceeds exec cand = false := by
                rw [hfail]
                simp only [ne_eq, Decidable.not_not] at hfb
                simp [hfb]
              rw [ih ((orig, cand) :: tried)]
              simp [loopTriedSpec, loopResultSpec, List.filter_cons, hne,
                List.dropWhile_cons, List.takeWhile_cons, hsucc,
                List.reverse_cons, List.append_assoc]
              cases List.dropWhile (fun p => !candSucceeds exec p.2)
                  (List.filter (fun p => !p.2.commands.isEmpty) rest) <;> rfl

/-- The attempted trace is a sublist of the sorted input list. -/
theorem loopTriedSpec_sublist (exec : Cmd → Except String Unit)
    (l : List (Nat × Candidate)) : (loopTriedSpec exec l).Sublist l := by
  unfold loopTriedSpec
  cases hd : List.dropWhile (fun p => !candSucceeds exec p.2)
      (l.filter (fun p => !p.2.commands.isEmpty)) with
  | nil => exact List.filter_sublist l
  | cons x tl =>
      dsimp only
      have hsplit := List.takeWhile_append_dropWhile (fun p => !candSucceeds exec p.2)
        (l.filter (fun p => !p.2.commands.isEmpty))
      rw [hd] at hsplit
      have hstep : ((l.filter (fun p => !p.2.commands.isEmpty)).takeWhile
            (fun p => !candSucceeds exec p.2) ++ [x]).Sublist
          ((l.filter (fun p => !p.2.commands.isEmpty)).takeWhile
            (fun p => !candSucceeds exec p.2) ++ x :: tl) :=
        List.Sublist.append_left ((List.nil_sublist tl).cons₂ x) _
      exact (hsplit ▸ hstep).trans (List.filter_sublist l)

/-- Claim C3: run_search tries candidates strictly in ascending order of the key
(estimated_encode_count, has_explicit_score, score, original_index) — the attempted
trace is pairwise strictly increasing in that key — and stops at the first candidate
whose pipeline (with its fallback, when present) succeeds: the whole loop equals its
best-first characterization, every attempted candidate but the last failed, and a
successful search chose the last attempted candidate. In particular, for the candidates
with encodeCount 2, 0 and 1 in any list order, with every command failing, the attempt
order is 0, then 1, then 2. -/
theorem C3_best_first_search :
    (∀ (exec : Cmd → Except String Unit) (cs : List Candidate),
      List.Pairwise candLt (run_search exec cs).1 ∧
      (cs ≠ [] →
        run_search exec cs =
          (loopTriedSpec exec (orderedCandidates cs),
            loopResultSpec exec (orderedCandidates cs))) ∧
      (∀ p ∈ (run_search exec cs).1.dropLast, candSucceeds exec p.2 = false) ∧
      (∀ r, (run_search exec cs).2 = .ok r →
        ∃ p, (run_search exec cs).1.getLast? = some p ∧ p.1 = r.chosenOrigIndex ∧
          candSucceeds exec p.2 = true)) ∧
    (∀ l ∈ ([[candEnc2, candEnc0, candEnc1], [candEnc2, candEnc1, candEnc0],
             [candEnc0, candEnc2, candEnc1], [candEnc0, candEnc1, candEnc2],
             [candEnc1, candEnc2, candEnc0], [candEnc1, candEnc0, candEnc2]] :
            List (List Candidate)),
      ((run_search failExec l).1).map (fun p => infer_candidate_encode_count p.2) =
        [0, 1, 2]) := by
  constructor
  · intro exec cs
    by_cases hcs : cs = []
    · subst hcs
      refine ⟨by simp [run_search], fun h => absurd rfl h, ?_, ?_⟩
      · intro p hp
        simp [run_search] at hp
      · intro r hr
        simp [run_search] at hr
    · have hr : run_search exec cs =
          (loopTriedSpec exec (orderedCandidates cs),
            loopResultSpec exec (orderedCandidates cs)) := by
        unfold run_search
        rw [if_neg hcs, searchLoop_eq]
        simp
      refine ⟨?_, fun _ => hr, ?_, ?_⟩
      · rw [hr]
        exact List.Pairwise.sublist (loopTriedSpec_sublist exec _)
          (pairwise_candLt_orderedCandidates cs)
      · intro p hp
        rw [hr] at hp
        unfold loopTriedSpec at hp
        revert hp
        cases hd : List.dropWhile (fun p => !candSucceeds exec p.2)
            ((orderedCandidates cs).filter (fun p => !p.2.commands.isEmpty)) with
        | nil =>
            intro hp
            have hall := List.dropWhile_eq_nil_iff.mp hd
            have := hall p (List.dropLast_subset _ hp)
            simpa using this
        | cons x tl =>
            intro hp
            rw [List.dropLast_concat] at hp
            have := List.mem_takeWhile_imp hp
            simpa using this
      · intro r hrr
        rw [hr] at hrr
        unfold loopResultSpec at hrr
        rw [hr]
        unfold loopTriedSpec
        revert hrr
        cases hd : List.dropWhile (fun p => !candSucceeds exec p.2)
            ((orderedCandidates cs).filter (fun p => !p.2.commands.isEmpty)) with
        | nil =>
            intro hrr
            exact absurd hrr (by simp)
        | cons x tl =>
            intro hrr
            refine ⟨x, List.getLast?_concat _, ?_, ?_⟩
            · have hinj := Except.ok.inj hrr
              rw [← hinj]
            · have hhead := List.head?_dropWhile_not
                (fun p => !candSucceeds exec p.2)
                ((orderedCandidates cs).filter (fun p => !p.2.commands.isEmpty))
              rw [hd] at hhead
              simpa using hhead
  · decide

/-- Witness for C3: the three-candidate example in one concrete list order. -/
theorem C3_witness :
    ([candEnc2, candEnc0, candEnc1] : List Candidate) ≠ [] ∧
    run_search failExec [candEnc2, candEnc0, candEnc1] =
      (loopTriedSpec failExec (orderedCandidates [candEnc2, candEnc0, candEnc1]),
        loopResultSpec failExec (orderedCandidates [candEnc2, candEnc0, candEnc1])) :=
  ⟨by decide,
   (C3_best_first_search.1 failExec [candEnc2, candEnc0, candEnc1]).2.1 (by decide)⟩

/-- olderOf always yields a row no younger than its right argument and no younger than
whatever the accumulator held. -/
theorem olderOf_le (acc : Option TaskRow) (t : TaskRow) :
    ∃ b', olderOf acc t = some b' ∧ b'.createdAt ≤ t.createdAt ∧
      (∀ b, acc = some b → b'.createdAt ≤ b.createdAt) ∧
      (b' = t ∨ acc = some b') := by
  cases acc with
  | none =>
      refine ⟨t, rfl, le_refl _, ?_, Or.inl rfl⟩
      intro b hb
      cases hb
  | some b =>
      by_cases hlt : t.createdAt < b.createdAt
      · refine ⟨t, ?_, le_refl _, ?_, Or.inl rfl⟩
        · show (if t.createdAt < b.createdAt then some t else some b) = some t
          rw [if_pos hlt]
        · intro b2 hb2
          cases hb2
          exact le_of_lt hlt
      · refine ⟨b, ?_, le_of_not_lt hlt, ?_, Or.inr rfl⟩
        · show (if t.createdAt < b.createdAt then some t else some b) = some b
          rw [if_neg hlt]
        · intro b2 hb2
          cases hb2
          exact le_refl _

/-- The fold of olderOf yields an element of the accumulator-or-list that is a lower
bound of the list (and of the accumulator). -/
theorem foldl_olderOf_spec :
    ∀ (l : List TaskRow) (acc : Option TaskRow) (c : TaskRow),
      l.foldl olderOf acc = some c →
      (acc = some c ∨ c ∈ l) ∧ (∀ u ∈ l, c.createdAt ≤ u.createdAt) ∧
      (∀ b, acc = some b → c.createdAt ≤ b.createdAt) := by
  intro l
  induction l with
  | nil =>
      intro acc c h
      rw [List.foldl_nil] at h
      exact ⟨Or.inl h, by simp, fun b hb => by rw [hb] at h; cases h; exact le_refl _⟩
  | cons t rest ih =>
      intro acc c h
      rw [List.foldl_cons] at h
      obtain ⟨hmem, hrest, hacc⟩ := ih (olderOf acc t) c h
      obtain ⟨b', hb', hbt, hbacc, hbmem⟩ := olderOf_le acc t
      have hcb : c.createdAt ≤ b'.createdAt := hacc b' hb'
      refine ⟨?_, ?_, ?_⟩
      · rcases hmem with hm | hm
        · rw [hb'] at hm
          have hbc : b' = c := Option.some.inj hm
          rcases hbmem with hb | hb
          · refine Or.inr ?_
            rw [← hbc, hb]
            exact List.mem_cons_self _ _
          · refine Or.inl ?_
            rw [← hbc]
            exact hb
        · exact Or.inr (List.mem_cons_of_mem _ hm)
      · intro u hu
        rcases List.mem_cons.mp hu with hu | hu
        · rw [hu]
          exact le_trans hcb hbt
        · exact hrest u hu
      · intro b hb
        exact le_trans hcb (hbacc b hb)

/-- The selected row of queuedOldest is a queued row of the table with minimal
created_at among queued rows. -/
theorem queuedOldest_spec (db : List TaskRow) (c : TaskRow) (h : queuedOldest db = some c) :
    c ∈ db ∧ c.status = .queued ∧
      ∀ u ∈ db, u.status = .queued → c.createdAt ≤ u.createdAt := by
  obtain ⟨hmem, hmin, _⟩ := foldl_olderOf_spec _ none c h
  rcases hmem with hm | hm
  · cases hm
  · have hm' := List.mem_filter.mp hm
    refine ⟨hm'.1, by simpa using hm'.2, ?_⟩
    intro u hu huq
    exact hmin u (List.mem_filter.mpr ⟨hu, by simpa using huq⟩)

/-- The fold of olderOf from a present accumulator never comes back empty. -/
theorem foldl_olderOf_ne_none :
    ∀ (l : List TaskRow) (b : TaskRow), l.foldl olderOf (some b) ≠ none := by
  intro l
  induction l with
  | nil => intro b h; cases h
  | cons t rest ih =>
      intro b h
      rw [List.foldl_cons] at h
      obtain ⟨b', hb', _, _, _⟩ := olderOf_le (some b) t
      rw [hb'] at h
      exact ih b' h

/-- queuedOldest returns none exactly when no row is queued. -/
theorem queuedOldest_eq_none_iff (db : List TaskRow) :
    queuedOldest db = none ↔ db.filter (fun t => t.status = .queued) = [] := by
  constructor
  · intro h
    unfold queuedOldest at h
    cases hf : db.filter (fun t => t.status = .queued) with
    | nil => rfl
    | cons t rest =>
        rw [hf, List.foldl_cons] at h
        exact absurd h (foldl_olderOf_ne_none rest t)
  · intro h
    unfold queuedOldest
    rw [h]
    rfl

/-- Claiming flips exactly the rows with the claimed id out of queued: the queued ids
afterwards are the queued ids before, minus the claimed id. -/
theorem queuedIds_after_claim (db : List TaskRow) (w : String) (now : Nat) (tid : Nat) :
    queuedIds (db.map (fun u => if u.id = tid then claimUpdate w now u else u)) =
      (db.filter (fun u => decide (u.status = .queued) && decide (u.id ≠ tid))).map
        TaskRow.id := by
  induction db with
  | nil => rfl
  | cons u rest ih =>
      unfold queuedIds at ih ⊢
      rw [List.map_cons, List.filter_cons, List.filter_cons]
      by_cases hu : u.id = tid
      · rw [if_pos hu]
        have h1 : decide ((claimUpdate w now u).status = Status.queued) = false := by
          simp [claimUpdate]
        have h2 : (decide (u.status = Status.queued) && decide (u.id ≠ tid)) = false := by
          simp [hu]
        simp only [h1, h2, Bool.false_eq_true, reduceIte]
        exact ih
      · rw [if_neg hu]
        by_cases hq : u.status = .queued
        · have h1 : decide (u.status = Status.queued) = true := decide_eq_true hq
          have h3 : decide (u.id ≠ tid) = true := by simp [hu]
          simp only [h1, h3, Bool.true_and, reduceIte, List.map_cons]
          rw [ih]
        · have h1 : decide (u.status = Status.queued) = false := by simp [hq]
          have h2 : (decide (u.status = Status.queued) && decide (u.id ≠ tid)) = false := by
            simp [hq]
          simp only [h1, h2, Bool.false_eq_true, reduceIte]
          exact ih

/-- Dropping the unique row with a given id shortens the list by exactly one. -/
theorem length_filter_ne_id (t0 : TaskRow) :
    ∀ A : List TaskRow, (A.map TaskRow.id).Nodup → t0 ∈ A →
      (A.filter (fun u => decide (u.id ≠ t0.id))).length + 1 = A.length := by
  intro A
  induction A with
  | nil => intro _ h; cases h
  | cons a rest ih =>
      intro hnd hmem
      rw [List.map_cons, List.nodup_cons] at hnd
      rw [List.filter_cons]
      by_cases ha : a.id = t0.id
      · have hpf : decide (a.id ≠ t0.id) = false := by simp [ha]
        have hrest : rest.filter (fun u => decide (u.id ≠ t0.id)) = rest := by
          rw [List.filter_eq_self]
          intro u hu
          simp only [ne_eq, decide_eq_true_eq]
          intro hcon
          exact hnd.1 (by rw [ha, ← hcon]; exact List.mem_map_of_mem TaskRow.id hu)
        simp only [hpf, Bool.false_eq_true, reduceIte]
        rw [hrest, List.length_cons]
      · have hpf : decide (a.id ≠ t0.id) = true := by simp [ha]
        have ht0 : t0 ∈ rest := by
          rcases List.mem_cons.mp hmem with h | h
          · exact absurd (by rw [h]) ha
          · exact h
        simp only [hpf, reduceIte, List.length_cons]
        rw [← ih hnd.2 ht0]

/-- A claim that returns no row leaves the table unchanged, and happens exactly when
nothing is queued. -/
theorem claim_next_task_none (db : List TaskRow) (w : String) (now : Nat)
    (db' : List TaskRow) (h : claim_next_task db w now = (none, db')) :
    db' = db ∧ queuedIds db = [] := by
  unfold claim_next_task at h
  cases hq : queuedOldest db with
  | none =>
      rw [hq] at h
      refine ⟨(Prod.mk.injEq .. |>.mp h).2.symm, ?_⟩
      unfold queuedIds
      rw [(queuedOldest_eq_none_iff db).mp hq]
      rfl
  | some c =>
      rw [hq] at h
      exact absurd (Prod.mk.injEq .. |>.mp h).1 (by simp)

/-- Specification of one atomic claim: it picks a queued row with minimal created_at,
transitions exactly that row to started with locked_by set and seq incremented in the
same step, leaves every other row untouched, preserves the id column, and removes
exactly the claimed id from the queued set. -/
theorem claim_next_task_spec (db : List TaskRow) (w : String) (now : Nat)
    (hnd : (db.map TaskRow.id).Nodup) (c : TaskRow) (db' : List TaskRow)
    (h : claim_next_task db w now = (some c, db')) :
    ∃ t0, t0 ∈ db ∧ t0.status = .queued ∧
      (∀ u ∈ db, u.status = .queued → t0.createdAt ≤ u.createdAt) ∧
      c = claimUpdate w now t0 ∧ c.id = t0.id ∧ c.status = .started ∧
      c.lockedBy = some w ∧ c.seq = t0.seq + 1 ∧
      db' = db.map (fun u => if u.id = t0.id then claimUpdate w now u else u) ∧
      db'.map TaskRow.id = db.map TaskRow.id ∧
      (∀ x, x ∈ queuedIds db' ↔ x ∈ queuedIds db ∧ x ≠ t0.id) ∧
      (queuedIds db').length + 1 = (queuedIds db).length := by
  unfold claim_next_task at h
  cases hq : queuedOldest db with
  | none =>
      rw [hq] at h
      exact absurd (Prod.mk.injEq .. |>.mp h).1 (by simp)
  | some t0 =>
      rw [hq] at h
      obtain ⟨hc, hdb'⟩ := Prod.mk.injEq .. |>.mp h
      have hc' : c = claimUpdate w now t0 := (Option.some.inj hc).symm
      obtain ⟨hmem, hstat, hmin⟩ := queuedOldest_spec db t0 hq
      have hdb'' : db' = db.map (fun u => if u.id = t0.id then claimUpdate w now u else u) :=
        hdb'.symm
      have hids : db'.map TaskRow.id = db.map TaskRow.id := by
        rw [hdb'', List.map_map]
        apply List.map_congr_left
        intro u _
        by_cases hu : u.id = t0.id
        · simp only [Function.comp_apply, if_pos hu]
          rfl
        · simp only [Function.comp_apply, if_neg hu]
      have hqids : queuedIds db' =
          (db.filter (fun u => decide (u.status = .queued) && decide (u.id ≠ t0.id))).map
            TaskRow.id := by
        rw [hdb'']
        exact queuedIds_after_claim db w now t0.id
      refine ⟨t0, hmem, hstat, hmin, hc', by rw [hc']; rfl, by rw [hc']; rfl,
        by rw [hc']; rfl, by rw [hc']; rfl, hdb'', hids, ?_, ?_⟩
      · intro x
        rw [hqids]
        constructor
        · intro hx
          rcases List.mem_map.mp hx with ⟨u, hu, hux⟩
          have hu' := List.mem_filter.mp hu
          have hq1 : u.status = .queued := by
            have := hu'.2
            simp only [Bool.and_eq_true, decide_eq_true_eq] at this
            exact this.1
          have hq2 : u.id ≠ t0.id := by
            have := hu'.2
            simp only [Bool.and_eq_true, decide_eq_true_eq, ne_eq] at this
            exact this.2
          refine ⟨?_, by rw [← hux]; exact hq2⟩
          unfold queuedIds
          rw [← hux]
          exact List.mem_map_of_mem TaskRow.id (List.mem_filter.mpr ⟨hu'.1, by simpa using hq1⟩)
        · rintro ⟨hx, hxne⟩
          unfold queuedIds at hx
          rcases List.mem_map.mp hx with ⟨u, hu, hux⟩
          have hu' := List.mem_filter.mp hu
          refine List.mem_map.mpr ⟨u, List.mem_filter.mpr ⟨hu'.1, ?_⟩, hux⟩
          have hq1 : u.status = .queued := by simpa using hu'.2
          simp only [Bool.and_eq_true, decide_eq_true_eq, ne_eq]
          exact ⟨hq1, by rw [hux]; exact hxne⟩
      · rw [hqids, List.length_map]
        have hfilt : db.filter (fun u => decide (u.status = .queued) && decide (u.id ≠ t0.id)) =
            (db.filter (fun u => u.status = .queued)).filter (fun u => decide (u.id ≠ t0.id)) := by
          rw [List.filter_filter]
          congr 1
          funext u
          rw [Bool.and_comm]
        rw [hfilt]
        have hndq : ((db.filter (fun u => u.status = .queued)).map TaskRow.id).Nodup :=
          List.Nodup.sublist (List.Sublist.map TaskRow.id (List.filter_sublist db)) hnd
        have ht0f : t0 ∈ db.filter (fun u => u.status = .queued) :=
          List.mem_filter.mpr ⟨hmem, by simpa using hstat⟩
        have := length_filter_ne_id t0 (db.filter (fun u => u.status = .queued)) hndq ht0f
        unfold queuedIds
        rw [List.length_map]
        exact this

/-- Over any schedule of claim calls against one table, the claimed ids are pairwise
distinct, every claimed id was queued initially, and exactly min(calls, queued) rows get
claimed. -/
theorem runClaims_exactly_once (calls : List (String × Nat)) :
    ∀ db : List TaskRow, (db.map TaskRow.id).Nodup →
      ((runClaims db calls).2.map (fun p => p.1.id)).Nodup ∧
      (∀ p ∈ (runClaims db calls).2, p.1.id ∈ queuedIds db) ∧
      (runClaims db calls).2.length = min calls.length (queuedIds db).length := by
  induction calls with
  | nil =>
      intro db hnd
      exact ⟨by simp [runClaims], by simp [runClaims], by simp [runClaims]⟩
  | cons cw rest ih =>
      intro db hnd
      obtain ⟨w, now⟩ := cw
      rw [runClaims]
      cases hc : claim_next_task db w now with
      | mk copt db2 =>
          cases copt with
          | none =>
              obtain ⟨hdb, hq⟩ := claim_next_task_none db w now db2 hc
              subst hdb
              obtain ⟨ihn, ihm, ihl⟩ := ih db2 hnd
              refine ⟨ihn, ihm, ?_⟩
              rw [ihl, hq]
              simp
          | some c =>
              obtain ⟨t0, hmem, hstat, hmin, hceq, hcid, _, _, _, hdb2, hids, hiff, hlen⟩ :=
                claim_next_task_spec db w now hnd c db2 hc
              have hnd2 : (db2.map TaskRow.id).Nodup := by
                rw [hids]
                exact hnd
              obtain ⟨ihn, ihm, ihl⟩ := ih db2 hnd2
              refine ⟨?_, ?_, ?_⟩
              · rw [List.map_cons, List.nodup_cons]
                refine ⟨?_, ihn⟩
                intro hcmem
                rcases List.mem_map.mp hcmem with ⟨p, hp, hpid⟩
                have hpq := (hiff p.1.id).mp (ihm p hp)
                apply hpq.2
                rw [hpid, hcid]
              · intro p hp
                rcases List.mem_cons.mp hp with hp | hp
                · rw [hp]
                  show c.id ∈ queuedIds db
                  rw [hcid]
                  exact List.mem_map_of_mem TaskRow.id
                    (List.mem_filter.mpr ⟨hmem, by simpa using hstat⟩)
                · exact ((hiff p.1.id).mp (ihm p hp)).1
              · simp only [List.length_cons]
                rw [ihl]
                omega

/-- Claim C2: each claim_next_task call atomically selects one queued row with minimal
created_at and transitions it to started with locked_by set (other rows untouched, each
claim is one SQL statement whose SKIP LOCKED clause makes a mid-claim row invisible to
concurrent callers rather than blocking them, which justifies modelling a claim as one
atomic step); across any schedule of concurrent claim calls, the claimed ids are
pairwise distinct, come from the initially queued rows, and when at least as many calls
as queued rows are made, every queued task is claimed — so each queued task is claimed
by exactly one worker exactly once. -/
theorem C2_claim_next_exactly_once (db : List TaskRow) (w : String) (now : Nat)
    (calls : List (String × Nat)) (hnd : (db.map TaskRow.id).Nodup) :
    (∀ c db', claim_next_task db w now = (some c, db') →
      ∃ t0, t0 ∈ db ∧ t0.status = .queued ∧
        (∀ u ∈ db, u.status = .queued → t0.createdAt ≤ u.createdAt) ∧
        c = claimUpdate w now t0 ∧ c.status = .started ∧ c.lockedBy = some w ∧
        c.seq = t0.seq + 1 ∧
        db' = db.map (fun u => if u.id = t0.id then claimUpdate w now u else u)) ∧
    ((runClaims db calls).2.map (fun p => p.1.id)).Nodup ∧
    (∀ p ∈ (runClaims db calls).2, p.1.id ∈ queuedIds db) ∧
    ((queuedIds db).length ≤ calls.length →
      ∀ x ∈ queuedIds db, x ∈ (runClaims db calls).2.map (fun p => p.1.id)) := by
  obtain ⟨hn, hm, hl⟩ := runClaims_exactly_once calls db hnd
  refine ⟨?_, hn, hm, ?_⟩
  · intro c db' h
    obtain ⟨t0, h1, h2, h3, h4, _, h6, h7, h8, h9, _⟩ :=
      claim_next_task_spec db w now hnd c db' h
    exact ⟨t0, h1, h2, h3, h4, h6, h7, h8, h9⟩
  · intro hge x hx
    have hsub : (runClaims db calls).2.map (fun p => p.1.id) ⊆ queuedIds db := by
      intro y hy
      rcases List.mem_map.mp hy with ⟨p, hp, hpy⟩
      rw [← hpy]
      exact hm p hp
    have hsp := List.subperm_of_subset hn hsub
    have hlenS : ((runClaims db calls).2.map (fun p => p.1.id)).length =
        (queuedIds db).length := by
      rw [List.length_map, hl]
      omega
    have hperm := hsp.perm_of_length_le (le_of_eq hlenS.symm)
    exact hperm.mem_iff.mpr hx

/-- Witness for C2: two queued rows, two workers, both rows claimed exactly once. -/
theorem C2_witness :
    (claimTableW.map TaskRow.id).Nodup ∧
    (queuedIds claimTableW).length ≤ claimCallsW.length ∧
    (1 : Nat) ∈ queuedIds claimTableW ∧
    (1 : Nat) ∈ (runClaims claimTableW claimCallsW).2.map (fun p => p.1.id) :=
  ⟨by decide, by decide, by decide,
   (C2_claim_next_exactly_once claimTableW "w1" 100 claimCallsW (by decide)).2.2.2
     (by decide) 1 (by decide)⟩

end MediaBackend
